import Mathlib

/-!
Verification development for the file-catalog repository.

The development shallowly embeds the Go sources (src/main.go and the unnamed
parts, which contain the same package with an Output abstraction) into Lean:

- Go maps are modeled as association lists with unique keys, in the helper
  functions alookup, aupsert, aerase and aappend below; iteration order of a
  Go map is unspecified, the list order of the model is one admissible order.
- Go strings are Lean strings; byte positions coincide with character
  positions because the inputs of interest are ASCII, and the Unicode-aware
  Go helpers (strings.ToLower, strings.TrimSpace) are modeled on their ASCII
  behavior.
- Filesystem and console I/O (os.Stat, hashFile, filepath.Walk, os.Remove,
  fmt printing) are collaborators per the specification: the embedding takes
  their answers as function-valued inputs and returns the values that the Go
  code would print, instead of performing the effects.
-/

/-! ## Byte-wise string order, modeling the built-in Go string comparison -/

/-- Lexicographic comparison of character lists by code point, the model of
the Go comparison a less-or-equal b on strings (Go compares byte-wise; on
ASCII data byte order and code-point order agree). -/
def listLeb : List Char → List Char → Bool
  | [], _ => true
  | _ :: _, [] => false
  | a :: as, b :: bs => if a.toNat = b.toNat then listLeb as bs else decide (a.toNat < b.toNat)

/-- Propositional form of listLeb on strings. -/
def strLe (a b : String) : Prop := listLeb a.toList b.toList = true

instance : DecidableRel strLe := fun a b => by unfold strLe; infer_instance

theorem listLeb_total (x y : List Char) : listLeb x y = true ∨ listLeb y x = true := by
  induction x generalizing y with
  | nil => left; rfl
  | cons c cs ih =>
    cases y with
    | nil => right; rfl
    | cons d ds =>
      by_cases h : c.toNat = d.toNat
      · rcases ih ds with h2 | h2
        · left; simp [listLeb, h, h2]
        · right; simp [listLeb, h.symm, h2]
      · rcases Nat.lt_or_ge c.toNat d.toNat with hlt | hge
        · left; simp [listLeb, h, hlt]
        · have h' : d.toNat ≠ c.toNat := fun e => h e.symm
          right; simp only [listLeb, if_neg h', decide_eq_true_eq]; omega

theorem listLeb_trans {x y z : List Char} (h1 : listLeb x y = true)
    (h2 : listLeb y z = true) : listLeb x z = true := by
  induction x generalizing y z with
  | nil => rfl
  | cons u us ih =>
    cases y with
    | nil => simp [listLeb] at h1
    | cons v vs =>
      cases z with
      | nil => simp [listLeb] at h2
      | cons w ws =>
        by_cases huv : u.toNat = v.toNat
        · simp only [listLeb, if_pos huv] at h1
          by_cases hvw : v.toNat = w.toNat
          · simp only [listLeb, if_pos hvw] at h2
            have huw : u.toNat = w.toNat := huv.trans hvw
            simp only [listLeb, if_pos huw]
            exact ih h1 h2
          · simp only [listLeb, if_neg hvw, decide_eq_true_eq] at h2
            have huw : u.toNat ≠ w.toNat := by omega
            simp only [listLeb, if_neg huw, decide_eq_true_eq]
            omega
        · simp only [listLeb, if_neg huv, decide_eq_true_eq] at h1
          by_cases hvw : v.toNat = w.toNat
          · have huw : u.toNat ≠ w.toNat := by omega
            simp only [listLeb, if_neg huw, decide_eq_true_eq]
            omega
          · simp only [listLeb, if_neg hvw, decide_eq_true_eq] at h2
            have huw : u.toNat ≠ w.toNat := by omega
            simp only [listLeb, if_neg huw, decide_eq_true_eq]
            omega

instance : IsTotal String strLe := ⟨fun a b => listLeb_total a.toList b.toList⟩

instance : IsTrans String strLe := ⟨fun _ _ _ => listLeb_trans⟩

/-- Sorting of a string slice, the model of both sort.Slice with a
less-than comparator and slices.Sort in the Go sources.  Any correct Go
sort produces a sorted permutation of its input; the model fixes insertion
sort as one admissible algorithm. -/
def sortStrings (l : List String) : List String := List.insertionSort strLe l

/-! ## Association-list model of Go maps -/

/-- Lookup in a Go map, modeled on an association list. -/
def alookup [DecidableEq κ] : List (κ × ν) → κ → Option ν
  | [], _ => none
  | (k, v) :: rest, key => if k = key then some v else alookup rest key

/-- Assignment m[k] = v in a Go map: replace the binding if the key is
present, otherwise append a new binding. -/
def aupsert [DecidableEq κ] (m : List (κ × ν)) (k : κ) (v : ν) : List (κ × ν) :=
  match m with
  | [] => [(k, v)]
  | (k', v') :: rest => if k' = k then (k, v) :: rest else (k', v') :: aupsert rest k v

/-- Deletion delete(m, k) in a Go map. -/
def aerase [DecidableEq κ] (m : List (κ × ν)) (k : κ) : List (κ × ν) :=
  m.filter fun e => decide (e.1 ≠ k)

/-- Statement m[k] = append(m[k], x) on a Go map whose values are slices;
a missing key denotes the empty slice. -/
def aappend [DecidableEq κ] (m : List (κ × List α)) (k : κ) (x : α) : List (κ × List α) :=
  aupsert m k ((alookup m k).getD [] ++ [x])

/-- Keys of the map model. -/
def akeys [DecidableEq κ] (m : List (κ × ν)) : List κ := m.map Prod.fst

theorem alookup_aupsert_self [DecidableEq κ] (m : List (κ × ν)) (k : κ) (v : ν) :
    alookup (aupsert m k v) k = some v := by
  induction m with
  | nil => simp [aupsert, alookup]
  | cons e rest ih =>
    by_cases h : e.1 = k
    · simp [aupsert, h, alookup]
    · simp [aupsert, h, alookup, ih]

theorem alookup_aupsert_ne [DecidableEq κ] (m : List (κ × ν)) (k k' : κ) (v : ν)
    (h : k ≠ k') : alookup (aupsert m k v) k' = alookup m k' := by
  induction m with
  | nil => simp [aupsert, alookup, h]
  | cons e rest ih =>
    by_cases he : e.1 = k
    · simp [aupsert, he, alookup, h]
    · simp only [aupsert, if_neg he]
      by_cases he' : e.1 = k'
      · simp [alookup, he']
      · simp [alookup, he', ih]

theorem alookup_isSome_aupsert [DecidableEq κ] (m : List (κ × ν)) (k k' : κ) (v : ν)
    (h : (alookup m k').isSome) : (alookup (aupsert m k v) k').isSome := by
  by_cases hk : k = k'
  · subst hk; simp [alookup_aupsert_self]
  · rwa [alookup_aupsert_ne m k k' v hk]

theorem akeys_aupsert [DecidableEq κ] (m : List (κ × ν)) (k : κ) (v : ν) :
    akeys (aupsert m k v) = if k ∈ akeys m then akeys m else akeys m ++ [k] := by
  induction m with
  | nil => simp [aupsert, akeys]
  | cons e rest ih =>
    by_cases h : e.1 = k
    · simp [aupsert, h, akeys]
    · have h' : ¬k = e.1 := fun hh => h hh.symm
      simp only [aupsert, if_neg h, akeys, List.map_cons, List.mem_cons]
      simp only [akeys] at ih
      rw [ih]
      by_cases hm : k ∈ rest.map Prod.fst
      · simp [hm, h']
      · simp [hm, h']

theorem nodup_akeys_aupsert [DecidableEq κ] (m : List (κ × ν)) (k : κ) (v : ν)
    (h : (akeys m).Nodup) : (akeys (aupsert m k v)).Nodup := by
  rw [akeys_aupsert]
  by_cases hm : k ∈ akeys m
  · simpa [hm]
  · simp only [hm, if_false]
    rw [List.nodup_append]
    exact ⟨h, List.nodup_singleton k, by simpa using hm⟩

theorem mem_aupsert [DecidableEq κ] (m : List (κ × ν)) (k : κ) (v : ν) (e : κ × ν)
    (h : e ∈ aupsert m k v) : e = (k, v) ∨ e ∈ m := by
  induction m with
  | nil => simpa [aupsert] using h
  | cons f rest ih =>
    by_cases hf : f.1 = k
    · simp only [aupsert, if_pos hf, List.mem_cons] at h
      rcases h with h | h
      · exact Or.inl h
      · exact Or.inr (List.mem_cons_of_mem _ h)
    · simp only [aupsert, if_neg hf, List.mem_cons] at h
      rcases h with h | h
      · exact Or.inr (by simp [h])
      · rcases ih h with h | h
        · exact Or.inl h
        · exact Or.inr (List.mem_cons_of_mem _ h)

theorem alookup_eq_none [DecidableEq κ] (m : List (κ × ν)) (k : κ) :
    alookup m k = none ↔ k ∉ akeys m := by
  induction m with
  | nil => simp [alookup, akeys]
  | cons e rest ih =>
    by_cases h : e.1 = k
    · simp [alookup, h, akeys]
    · have h' : ¬k = e.1 := fun hh => h hh.symm
      simp [alookup, h, akeys, h', ih]

theorem alookup_mem [DecidableEq κ] (m : List (κ × ν)) (k : κ) (v : ν)
    (h : alookup m k = some v) : (k, v) ∈ m := by
  induction m with
  | nil => simp [alookup] at h
  | cons e rest ih =>
    by_cases he : e.1 = k
    · simp only [alookup, if_pos he] at h
      obtain ⟨a, b⟩ := e
      cases he
      cases h
      exact List.mem_cons_self _ _
    · simp only [alookup, if_neg he] at h
      exact List.mem_cons_of_mem _ (ih h)

theorem mem_alookup [DecidableEq κ] (m : List (κ × ν)) (k : κ) (v : ν)
    (hnd : (akeys m).Nodup) (h : (k, v) ∈ m) : alookup m k = some v := by
  induction m with
  | nil => simp at h
  | cons e rest ih =>
    simp only [akeys, List.map_cons, List.nodup_cons] at hnd
    rcases List.mem_cons.mp h with h | h
    · subst h
      simp [alookup]
    · have hk : e.1 ≠ k := by
        intro he
        exact hnd.1 (he ▸ (List.mem_map.mpr ⟨(k, v), h, rfl⟩))
      simp only [alookup, if_neg hk]
      exact ih hnd.2 h

/-! ## Decimal integers, modeling strconv.Itoa and strconv.Atoi -/

/-- Character for one decimal digit. -/
def digitChar (d : Nat) : Char := Char.ofNat (48 + d)

/-- Fuel-driven digit extraction, least significant digit last; the fuel
only serves structural termination and any amount at least the value
works. -/
def natToDecAux : Nat → Nat → List Char
  | 0, _ => []
  | fuel + 1, n => if n = 0 then [] else natToDecAux fuel (n / 10) ++ [digitChar (n % 10)]

/-- Decimal rendering of a natural number, most significant digit first. -/
def natToDec (n : Nat) : List Char :=
  if n = 0 then ['0'] else natToDecAux n n

theorem natToDecAux_eq_digits {fuel n : Nat} (h : n ≤ fuel) :
    natToDecAux fuel n = ((Nat.digits 10 n).map digitChar).reverse := by
  induction fuel using Nat.strong_induction_on generalizing n with
  | _ fuel ih =>
    cases fuel with
    | zero =>
      have : n = 0 := by omega
      subst this
      simp [natToDecAux]
    | succ f =>
      by_cases h0 : n = 0
      · subst h0
        simp [natToDecAux]
      · have hpos : 0 < n := Nat.pos_of_ne_zero h0
        rw [Nat.digits_def' (by norm_num : (1 : Nat) < 10) hpos]
        have hdiv : n / 10 ≤ f := by
          have : n / 10 < n := Nat.div_lt_self hpos (by norm_num)
          omega
        simp only [natToDecAux, if_neg h0, List.map_cons, List.reverse_cons]
        rw [ih f (Nat.lt_succ_self f) hdiv]

theorem natToDec_eq_digits (n : Nat) :
    natToDec n = if n = 0 then ['0'] else ((Nat.digits 10 n).map digitChar).reverse := by
  by_cases h : n = 0
  · simp [natToDec, h]
  · simp [natToDec, h, natToDecAux_eq_digits (Nat.le_refl n)]

/-- Model of strconv.Itoa from the Go standard library (also covering the
percent-d rendering used by fmt.Sprintf for group keys). -/
def goItoa (i : Int) : String :=
  if i < 0 then ⟨'-' :: natToDec i.natAbs⟩ else ⟨natToDec i.natAbs⟩

/-- Value of a decimal digit character, if it is one. -/
def decDigit (c : Char) : Option Nat :=
  if 48 ≤ c.toNat ∧ c.toNat ≤ 57 then some (c.toNat - 48) else none

/-- Accumulating decimal parser over a digit run. -/
def parseDigits : List Char → Nat → Option Nat
  | [], acc => some acc
  | c :: rest, acc =>
    match decDigit c with
    | some d => parseDigits rest (acc * 10 + d)
    | none => none

/-- Model of strconv.Atoi from the Go standard library: an optional sign
followed by a nonempty digit run; none models the error return.  The Go
function additionally fails on 64-bit overflow, which no value written by
goItoa from a Go int can trigger. -/
def goAtoi (s : String) : Option Int :=
  match s.data with
  | [] => none
  | c :: rest =>
    if c = '-' then
      if rest.isEmpty then none else (parseDigits rest 0).map fun n => -(n : Int)
    else if c = '+' then
      if rest.isEmpty then none else (parseDigits rest 0).map fun n => (n : Int)
    else (parseDigits (c :: rest) 0).map fun n => (n : Int)

theorem digitChar_toNat {d : Nat} (h : d < 10) : (digitChar d).toNat = 48 + d := by
  interval_cases d <;> decide

theorem decDigit_digitChar {d : Nat} (h : d < 10) : decDigit (digitChar d) = some d := by
  interval_cases d <;> decide

theorem parseDigits_append (xs ys : List Char) (acc : Nat) :
    parseDigits (xs ++ ys) acc =
      match parseDigits xs acc with
      | none => none
      | some m => parseDigits ys m := by
  induction xs generalizing acc with
  | nil => simp [parseDigits]
  | cons c rest ih =>
    simp only [List.cons_append, parseDigits]
    cases decDigit c with
    | none => simp
    | some d => simp [ih]

theorem parseDigits_rev_digits (ds : List Nat) (hd : ∀ d ∈ ds, d < 10) (acc : Nat) :
    parseDigits ((ds.map digitChar).reverse) acc =
      some (acc * 10 ^ ds.length + Nat.ofDigits 10 ds) := by
  induction ds generalizing acc with
  | nil => simp [parseDigits, Nat.ofDigits_nil]
  | cons d ds ih =>
    have hd0 : d < 10 := hd d (List.mem_cons_self _ _)
    have hds : ∀ x ∈ ds, x < 10 := fun x hx => hd x (List.mem_cons_of_mem _ hx)
    simp only [List.map_cons, List.reverse_cons, parseDigits_append, ih hds acc]
    simp only [parseDigits, decDigit_digitChar hd0, Nat.ofDigits_cons, List.length_cons]
    congr 1
    ring

theorem parseDigits_natToDec (n : Nat) : parseDigits (natToDec n) 0 = some n := by
  by_cases h : n = 0
  · subst h; decide
  · have hd : ∀ d ∈ Nat.digits 10 n, d < 10 := fun d hx =>
      Nat.digits_lt_base (by norm_num) hx
    rw [natToDec_eq_digits]
    simp [h, parseDigits_rev_digits _ hd 0, Nat.ofDigits_digits]

theorem natToDec_ne_nil (n : Nat) : natToDec n ≠ [] := by
  rw [natToDec_eq_digits]
  by_cases h : n = 0
  · simp [h]
  · have : Nat.digits 10 n ≠ [] := Nat.digits_ne_nil_iff_ne_zero.mpr h
    simp [h, this]

theorem natToDec_mem_range {n : Nat} {c : Char} (h : c ∈ natToDec n) :
    48 ≤ c.toNat ∧ c.toNat ≤ 57 := by
  by_cases h0 : n = 0
  · subst h0
    have h1 : natToDec 0 = ['0'] := rfl
    rw [h1, List.mem_singleton] at h
    subst h; decide
  · rw [natToDec_eq_digits] at h
    simp only [if_neg h0, List.mem_reverse, List.mem_map] at h
    obtain ⟨d, hd, rfl⟩ := h
    have : d < 10 := Nat.digits_lt_base (by norm_num) hd
    rw [digitChar_toNat this]
    omega

theorem goAtoi_goItoa (i : Int) : goAtoi (goItoa i) = some i := by
  by_cases hneg : i < 0
  · have : goItoa i = ⟨'-' :: natToDec i.natAbs⟩ := by simp [goItoa, hneg]
    rw [this]
    show goAtoi ⟨'-' :: natToDec i.natAbs⟩ = some i
    have hne : (natToDec i.natAbs).isEmpty = false := by
      cases h : natToDec i.natAbs with
      | nil => exact absurd h (natToDec_ne_nil _)
      | cons a l => rfl
    have h2 : goAtoi ⟨'-' :: natToDec i.natAbs⟩
        = (parseDigits (natToDec i.natAbs) 0).map fun n => -(n : Int) := by
      simp [goAtoi, hne]
    rw [h2, parseDigits_natToDec]
    have h3 : (-(i.natAbs : Int)) = i := by omega
    simp [h3, abs_of_nonpos (le_of_lt hneg)]
  · have : goItoa i = ⟨natToDec i.natAbs⟩ := by simp [goItoa, hneg]
    rw [this]
    show goAtoi ⟨natToDec i.natAbs⟩ = some i
    cases h : natToDec i.natAbs with
    | nil => exact absurd h (natToDec_ne_nil _)
    | cons c rest =>
      have hc : 48 ≤ c.toNat ∧ c.toNat ≤ 57 := natToDec_mem_range (h ▸ List.mem_cons_self c rest)
      have hcm : c ≠ '-' := by intro e; subst e; revert hc; decide
      have hcp : c ≠ '+' := by intro e; subst e; revert hc; decide
      have hparse : parseDigits (c :: rest) 0 = some i.natAbs := h ▸ parseDigits_natToDec i.natAbs
      have h2 : goAtoi ⟨c :: rest⟩ = (parseDigits (c :: rest) 0).map fun n => (n : Int) := by
        simp [goAtoi, hcm, hcp]
      rw [h2, hparse]
      have h3 : ((i.natAbs : Int)) = i := by omega
      simp [h3, abs_of_nonneg (not_lt.mp hneg)]

/-! ## String helpers from the strings and path/filepath packages -/

/-- Model of strings.ToLower on one character.  Go lowercases per Unicode;
the model covers the ASCII range, which is where all search terms and the
repository test data live. -/
def lowerChar (c : Char) : Char :=
  if 65 ≤ c.toNat ∧ c.toNat ≤ 90 then Char.ofNat (c.toNat + 32) else c

/-- Whitespace test of strings.TrimSpace, on its ASCII range. -/
def isSpaceChar (c : Char) : Bool :=
  decide (c.toNat = 32 ∨ (9 ≤ c.toNat ∧ c.toNat ≤ 13))

/-- Model of strings.TrimSpace. -/
def goTrimSpace (s : String) : String :=
  ⟨((s.data.dropWhile isSpaceChar).reverse.dropWhile isSpaceChar).reverse⟩

/-- Model of strings.ToLower. -/
def goToLower (s : String) : String := ⟨s.data.map lowerChar⟩

/-- Model of strings.Split with the fixed one-character separator "-". -/
def splitDash : List Char → List (List Char)
  | [] => [[]]
  | c :: rest =>
    match splitDash rest with
    | [] => [[]]
    | g :: gs => if c = '-' then [] :: g :: gs else (c :: g) :: gs

/-- File-name component of filepath.Split: the suffix after the last path
separator. -/
def baseName (s : String) : List Char :=
  (s.data.reverse.takeWhile fun c => decide (c ≠ '/')).reverse

/-- Source function pathToSearchTerms: split the base name on the dash
separator, then trim and lowercase every part. -/
def pathToSearchTerms (filePath : String) : List String :=
  (splitDash (baseName filePath)).map fun t => goToLower (goTrimSpace ⟨t⟩)

/-- Containment check underlying strings.Contains: does the first list
occur as a contiguous run inside the second. -/
def infixCheck (needle : List Char) : List Char → Bool
  | [] => needle.isEmpty
  | c :: t => needle.isPrefixOf (c :: t) || infixCheck needle t

/-- Model of strings.Contains. -/
def containsGo (s sub : String) : Bool := infixCheck sub.data s.data

/-- Model of strings.HasPrefix, the raw string-prefix test of the scan
deletion phase. -/
def startsWithGo (s pre : String) : Bool := pre.data.isPrefixOf s.data

/-- Model of strings.Index on lowered haystacks: position of the first
occurrence of the needle, none for the -1 not-found return. -/
def goIndex (needle : List Char) : List Char → Option Nat
  | [] => if needle.isEmpty then some 0 else none
  | c :: t => if needle.isPrefixOf (c :: t) then some 0 else (goIndex needle t).map (· + 1)

/-! ## Data model: records and the multi-indexed store -/

/-- Source type Record. -/
structure Record where
  Path : String
  Size : Int
  Hash : String
  SearchTerms : List String
deriving DecidableEq

/-- Source type DB: the primary map Files keyed by path (the ID string
type), and the three secondary indices.  The dbFile name, the mutex and
the output sink are collaborator state with no bearing on the data model. -/
structure DB where
  Files : List (String × Record)
  Sizes : List (Int × List String)
  Hashes : List (String × List String)
  SearchTerms : List (String × List String)
deriving DecidableEq

/-- Source function NewDB: the empty store. -/
def NewDB : DB := ⟨[], [], [], []⟩

/-- Source method DB.add: insert the record into Files and append its id
to the three index buckets.  The Go method always returns nil. -/
def DB.add (db : DB) (filePath : String) (size : Int) (hash : String)
    (searchTerms : List String) : DB where
  Files := aupsert db.Files filePath ⟨filePath, size, hash, searchTerms⟩
  Sizes := aappend db.Sizes size filePath
  Hashes := aappend db.Hashes hash filePath
  SearchTerms := searchTerms.foldl (fun m term => aappend m term filePath) db.SearchTerms

/-! ## Persistence codec: Write, handleRecord and Load -/

/-- Outcome of handleRecord on one raw CSV row: crash models the Go
index-out-of-range panic on a too-short row, skip models the
size-parse-failure diagnostic, ok carries the decoded triple. -/
inductive RowResult where
  | crash : RowResult
  | skip : String → String → RowResult
  | ok : String → Int → String → RowResult
deriving DecidableEq

/-- Row-level body of source function handleRecord: read field 0 as the
path, parse field 1 with strconv.Atoi (a failure skips the row), then read
field 2 as the hash.  Accessing a missing field panics in Go. -/
def parseRecordRow : List String → RowResult
  | path :: sizeStr :: rest =>
    match goAtoi sizeStr with
    | none => RowResult.skip path sizeStr
    | some size =>
      match rest with
      | hash :: _ => RowResult.ok path size hash
      | [] => RowResult.crash
  | _ => RowResult.crash

/-- Source method DB.handleRecord; none models a panic. -/
def DB.handleRecord (db : DB) (row : List String) : Option DB :=
  match parseRecordRow row with
  | RowResult.crash => none
  | RowResult.skip _ _ => some db
  | RowResult.ok path size hash => some (db.add path size hash (pathToSearchTerms path))

/-- Source method DB.Load on the row list returned by readCsvFile: feed
every row through handleRecord.  A none result models the process dying
mid-load on a row panic; the fatal unreadable-file case is upstream of
this function, in readCsvFile. -/
def DB.Load (db : DB) : List (List String) → Option DB
  | [] => some db
  | row :: rest =>
    match db.handleRecord row with
    | none => none
    | some d => d.Load rest

/-- Source method DB.Write, at the level of the row list handed to the
CSV writer: one row per Files entry, fields path, size, hash. -/
def DB.Write (db : DB) : List (List String) :=
  db.Files.map fun e => [e.2.Path, goItoa e.2.Size, e.2.Hash]

/-- Decoded triples of a row list: the rows accepted by handleRecord,
in order.  This is the codec contract decode of the specification. -/
def decodeRows (rows : List (List String)) : List (String × Int × String) :=
  rows.filterMap fun row =>
    match parseRecordRow row with
    | RowResult.ok path size hash => some (path, size, hash)
    | _ => none

/-! ## Scan reconciliation: handleMatch and handleMatches -/

/-- Source method DB.handleMatch.  The os.Stat call, the sample-size cap
and hashFile are filesystem collaborators: fsinfo yields the size and the
content digest of a path, or none when stat or the hash read fails, in
which case handleMatch returns the wrapped error. -/
def DB.handleMatch (db : DB) (fsinfo : String → Option (Int × String))
    (filename : String) : Option DB :=
  match fsinfo filename with
  | none => none
  | some (size, hash) => some (db.add filename size hash (pathToSearchTerms filename))

/-- First phase of handleMatches: walk the enumerated file set, skip the
paths already present in Files, add the rest.  Returns the new store, the
skipped count and the created count.  A handleMatch failure is printed and
counted in neither. -/
def scanAdds (fsinfo : String → Option (Int × String)) : DB → List String → DB × Nat × Nat
  | db, [] => (db, 0, 0)
  | db, f :: rest =>
    if (alookup db.Files f).isSome then
      let r := scanAdds fsinfo db rest
      (r.1, r.2.1 + 1, r.2.2)
    else
      match db.handleMatch fsinfo f with
      | none => scanAdds fsinfo db rest
      | some d2 =>
        let r := scanAdds fsinfo d2 rest
        (r.1, r.2.1, r.2.2 + 1)

/-- Deletion test of the second phase of handleMatches: the record path
has the root as a raw string prefix (strings.HasPrefix) and was not
enumerated in this scan. -/
def scanVictim (root : String) (files : List String) (r : Record) : Bool :=
  startsWithGo r.Path root && !(files.contains r.Path)

/-- Source method DB.handleMatches for one root: the add phase over the
enumerated set, then removal of every Files entry whose record satisfies
scanVictim.  The Go code ranges over the live map deleting by
ID(record.Path); on every store the program builds the entry key equals
the record path, and the batch filter below is that semantics.  Returns
the store and the counters skipped, created, deleted. -/
def DB.handleMatches (db : DB) (root : String) (files : List String)
    (fsinfo : String → Option (Int × String)) : DB × Nat × Nat × Nat :=
  let p := scanAdds fsinfo db files
  let db1 := p.1
  let removed := db1.Files.filter fun e => scanVictim root files e.2
  let kept := db1.Files.filter fun e => !scanVictim root files e.2
  (⟨kept, db1.Sizes, db1.Hashes, db1.SearchTerms⟩, p.2.1, p.2.2, removed.length)

/-! ## Search engine -/

/-- Inner loop of slowCollectIDs for one needle: concatenate the buckets
of every stored term that contains the needle, in map order. -/
def collectContains (st : List (String × List String)) (needle : String) : List String :=
  st.foldl (fun found e => if containsGo e.1 needle then found ++ e.2 else found) []

/-- Source method DB.slowCollectIDs; none models the early nil return
when some needle matches no stored term. -/
def slowCollectAux (st : List (String × List String)) : List String → Option (List (List String))
  | [] => some []
  | needle :: rest =>
    let found := collectContains st needle
    if found.isEmpty then none
    else (slowCollectAux st rest).map (found :: ·)

/-- Result of slowCollectIDs as the Go caller sees it: the empty group
list both for an empty query and for an aborted query. -/
def DB.slowCollectIDs (db : DB) (searchedTerms : List String) : List (List String) :=
  (slowCollectAux db.SearchTerms searchedTerms).getD []

/-- Source function intersectIDs. -/
def intersectIDs (a b : List String) : List String := a.filter fun id => b.contains id

/-- Source function intersectAllIDs.  The Go code indexes idGroups[0]
and is only called on a nonempty group list; the fold also returns the
empty list on the early-out, which the Go nil return equals as a value. -/
def intersectAllIDs (idGroups : List (List String)) : List String :=
  match idGroups with
  | [] => []
  | g :: rest => rest.foldl intersectIDs g

/-- Source method DB.Search in mode slow, up to printing: collect the
per-needle groups and intersect them.  The Go method hands the result to
PrintIDs for display. -/
def DB.SearchSlow (db : DB) (searchTerms : List String) : List String :=
  let allIDs := db.slowCollectIDs searchTerms
  if allIDs.isEmpty then [] else intersectAllIDs allIDs

/-- Display limit maxLines of the source. -/
def maxLines : Nat := 100

/-- Source method DB.PrintIDs, as the data it displays: the id list is
truncated to maxLines entries, then sorted in place, and one line per
remaining id is printed; the second component tells whether the
truncation notice line is printed afterwards. -/
def PrintIDs (ids : List String) : List String × Bool :=
  let ids2 := if ids.length > maxLines then ids.take maxLines else ids
  (sortStrings ids2, decide (ids2.length ≥ maxLines))

/-! ## Highlight renderer -/

/-- ANSI marker constants of the source. -/
def redBold : List Char := "\x1b[1m\x1b[31m".data

/-- ANSI marker for the weak, no-match styling. -/
def yellowBold : List Char := "\x1b[1m\x1b[33m".data

/-- ANSI marker for the ambiguous, overlapping-match styling. -/
def blueBold : List Char := "\x1b[1m\x1b[43m".data

/-- ANSI reset marker of the source. -/
def resetCode : List Char := "\x1b[0m".data

/-- First loop of FindHighlights: the span of the first occurrence of
each needle in the lowered haystack, in needle order, skipping the
needles that do not occur. -/
def matchedSpans (haystack : String) (needles : List String) : List (Nat × Nat) :=
  let lower := haystack.data.map lowerChar
  needles.foldl (fun acc needle =>
    match goIndex needle.data lower with
    | none => acc
    | some idx => acc ++ [(idx, idx + needle.data.length)]) []

/-- Span ordering of the sort.Slice call in FindHighlights: by start
offset. -/
def sortSpans (spans : List (Nat × Nat)) : List (Nat × Nat) :=
  List.insertionSort (fun a b => a.1 ≤ b.1) spans

/-- Go slice expression haystack[a:b] on a character list. -/
def sliceChars (l : List Char) (a b : Nat) : List Char := (l.take b).drop a

/-- Main loop of FindHighlights: walk the sorted spans carrying the end
offset tmp of the last emitted span; a span starting before tmp aborts
(the Go overlap early-return), otherwise the unhighlighted gap and the
marked span are appended to parts; at the end the tail after tmp is
appended when nonempty. -/
def renderLoop (hay : List Char) : List (Nat × Nat) → Nat → Option (List (List Char))
  | [], tmp => some (if tmp < hay.length then [hay.drop tmp] else [])
  | (s, e) :: rest, tmp =>
    if tmp > 0 ∧ tmp > s then none
    else (renderLoop hay rest e).map fun ps =>
      sliceChars hay tmp s :: (redBold ++ sliceChars hay s e ++ resetCode) :: ps

/-- Source function FindHighlights. -/
def FindHighlights (haystack : String) (needles : List String) : String :=
  let hay := haystack.data
  let spans := sortSpans (matchedSpans haystack needles)
  match renderLoop hay spans 0 with
  | none => ⟨blueBold ++ hay ++ resetCode⟩
  | some parts =>
    if parts.length ≤ 1 then ⟨yellowBold ++ hay ++ resetCode⟩
    else ⟨parts.flatten⟩

/-! ## Duplicate resolver -/

/-- Source type SearchType, with its two constant values. -/
inductive SearchType where
  | SizeAndHash : SearchType
  | SearchTerm : SearchType
deriving DecidableEq

/-- Source type SearchGroup; the Go field Type is named Type' here. -/
structure SearchGroup where
  IDs : List String
  SearchTerms : List String
  Type' : SearchType
deriving DecidableEq

/-- Group key of duplicatesBySizeAndHash, the Sprintf format
percent-s dash percent-d applied to the hash and the size. -/
def mkGroupKey (hash : String) (size : Int) : String := hash ++ "-" ++ goItoa size

/-- Grouping of a list by a key function through repeated map-append,
the shape of the sizes map built inside duplicatesBySizeAndHash. -/
def groupByKey [DecidableEq κ] (f : α → κ) (xs : List α) : List (κ × List α) :=
  xs.foldl (fun m x => aappend m (f x) x) []

/-- Size of the record stored under an id; a missing id denotes the Go
zero Record, whose size is 0. -/
def sizeOfID (files : List (String × Record)) (id : String) : Int :=
  ((alookup files id).getD ⟨"", 0, "", []⟩).Size

/-- Source method DB.duplicatesBySizeAndHash, as the group map it builds
and then hands to handleDuplicateGroups: every hash bucket with at least
two ids is partitioned by record size, and each part becomes a group
under the hash-size key, its member list sorted. -/
def DB.duplicatesBySizeAndHash (db : DB) : List (String × SearchGroup) :=
  db.Hashes.foldl (fun groups e =>
    if e.2.length < 2 then groups
    else
      (groupByKey (sizeOfID db.Files) e.2).foldl (fun gs se =>
        aupsert gs (mkGroupKey e.1 se.1) ⟨sortStrings se.2, [], SearchType.SizeAndHash⟩)
        groups) []

/-- Source method DB.deleteFile: parse the 1-based index (after
TrimSpace), validate the range, then remove the id from Files and ask
the filesystem collaborator fsRemove to delete the file; its failure is
reported and makes the return value false, after the map deletion. -/
def DB.deleteFile (db : DB) (ids : List String) (num : String)
    (fsRemove : String → Bool) : DB × Bool :=
  match goAtoi (goTrimSpace num) with
  | none => (db, false)
  | some index =>
    if index < 1 ∨ index > (ids.length : Int) then (db, false)
    else
      let id := ids.getD (index.toNat - 1) ""
      ({ db with Files := aerase db.Files id }, fsRemove id)

/-! ## Store invariants maintained by the program -/

/-- Well-formedness of the primary map: keys are unique and every entry
key is the path of its record.  Every store the program builds satisfies
this. -/
def filesWF (files : List (String × Record)) : Prop :=
  (akeys files).Nodup ∧ ∀ e ∈ files, e.2.Path = e.1

instance : DecidablePred filesWF := fun files => by unfold filesWF; infer_instance

/-- Unique-keys discipline of all four Go maps of the store. -/
def DB.Inv (db : DB) : Prop :=
  filesWF db.Files ∧ (akeys db.Sizes).Nodup ∧ (akeys db.Hashes).Nodup ∧
    (akeys db.SearchTerms).Nodup

instance : DecidablePred DB.Inv := fun db => by unfold DB.Inv; infer_instance

/-! ## Preservation of the map invariants by the program operations -/

theorem nodup_akeys_aappend [DecidableEq κ] (m : List (κ × List α)) (k : κ) (x : α)
    (h : (akeys m).Nodup) : (akeys (aappend m k x)).Nodup :=
  nodup_akeys_aupsert m k _ h

theorem nodup_akeys_foldl_aappend [DecidableEq κ] (f : α → κ) (v : α → β) (xs : List α)
    (m : List (κ × List β)) (h : (akeys m).Nodup) :
    (akeys (xs.foldl (fun m x => aappend m (f x) (v x)) m)).Nodup := by
  induction xs generalizing m with
  | nil => exact h
  | cons x rest ih => exact ih _ (nodup_akeys_aappend m (f x) (v x) h)

theorem filesWF_add (db : DB) (p : String) (size : Int) (hash : String) (terms : List String)
    (h : filesWF db.Files) : filesWF (db.add p size hash terms).Files := by
  constructor
  · exact nodup_akeys_aupsert _ _ _ h.1
  · intro e he
    rcases mem_aupsert _ _ _ _ he with he | he
    · subst he; rfl
    · exact h.2 e he

theorem Inv_add (db : DB) (p : String) (size : Int) (hash : String) (terms : List String)
    (h : db.Inv) : (db.add p size hash terms).Inv := by
  refine ⟨filesWF_add db p size hash terms h.1, ?_, ?_, ?_⟩
  · exact nodup_akeys_aappend _ _ _ h.2.1
  · exact nodup_akeys_aappend _ _ _ h.2.2.1
  · exact nodup_akeys_foldl_aappend (fun t => t) (fun _ => p) terms _ h.2.2.2

theorem Inv_NewDB : NewDB.Inv := by decide

/-- Membership in an erased map. -/
theorem mem_aerase [DecidableEq κ] {m : List (κ × ν)} {k : κ} {e : κ × ν}
    (h : e ∈ aerase m k) : e ∈ m ∧ e.1 ≠ k := by
  have := List.mem_filter.mp h
  exact ⟨this.1, by simpa using this.2⟩

/-! ## Claim C2: codec round trip -/

theorem parseRecordRow_encoded (p : String) (n : Int) (h : String) :
    parseRecordRow [p, goItoa n, h] = RowResult.ok p n h := by
  simp [parseRecordRow, goAtoi_goItoa]

theorem decodeRows_encoded (fs : List (String × Record)) :
    decodeRows (fs.map fun e => [e.2.Path, goItoa e.2.Size, e.2.Hash])
      = fs.map fun e => (e.2.Path, e.2.Size, e.2.Hash) := by
  induction fs with
  | nil => rfl
  | cons e rest ih =>
    simp only [List.map_cons, decodeRows, List.filterMap_cons, parseRecordRow_encoded]
    simp only [decodeRows] at ih
    rw [ih]

/-- C2: decoding the rows produced by encoding a record store yields
exactly the path, size, hash triples of the store, row for row, and
therefore the same set of triples up to row ordering. -/
theorem c2_encode_decode_roundTrip (db : DB) :
    decodeRows db.Write = db.Files.map fun e => (e.2.Path, e.2.Size, e.2.Hash) :=
  decodeRows_encoded db.Files

/-! ## Claim C1: the index-consistency invariant against the code -/

/-- Store holding the single record with path a, size 1, hash h. -/
def dbC1 : DB := NewDB.add "a" 1 "h" (pathToSearchTerms "a")

/-- C1: the index-consistency invariant does not survive an interactive
duplicate deletion: deleting the only record empties Files, yet the path
is still present in the size, hash and search-term indices, so an index
bucket holds a path absent from Files. -/
theorem c1_indexStaleAfterDelete :
    ((dbC1.deleteFile ["a"] "1" fun _ => true).1.Files = [] ∧
        (dbC1.deleteFile ["a"] "1" fun _ => true).2 = true) ∧
      alookup (dbC1.deleteFile ["a"] "1" fun _ => true).1.Sizes 1 = some ["a"] ∧
      alookup (dbC1.deleteFile ["a"] "1" fun _ => true).1.Hashes "h" = some ["a"] ∧
      alookup (dbC1.deleteFile ["a"] "1" fun _ => true).1.SearchTerms "a" = some ["a"] := by
  decide

/-! ## Claim C5: load tolerance -/

/-- C5 counterexample: a readable backing file whose single row parses as
CSV with the two fields a and 1 makes the load panic on the missing hash
field, so the load does fail outright on a readable, CSV-parseable file. -/
theorem c5_counterexample : NewDB.Load [["a", "1"]] = none := by decide

/-- C5 amended: on rows of at least three fields the load never fails:
every row whose size field fails integer parsing is skipped and every
other row is added, in order. -/
theorem c5_loadTolerant (db : DB) (rows : List (List String))
    (h : ∀ row ∈ rows, 3 ≤ row.length) :
    db.Load rows = some ((decodeRows rows).foldl
      (fun d t => d.add t.1 t.2.1 t.2.2 (pathToSearchTerms t.1)) db) := by
  induction rows generalizing db with
  | nil => rfl
  | cons row rest ih =>
    have h3 : 3 ≤ row.length := h row (List.mem_cons_self _ _)
    have hrest : ∀ r ∈ rest, 3 ≤ r.length := fun r hr => h r (List.mem_cons_of_mem _ hr)
    match row, h3 with
    | p :: s :: hs :: t, _ =>
      cases hA : goAtoi s with
      | none =>
        simp only [DB.Load, DB.handleRecord, parseRecordRow, hA, decodeRows,
          List.filterMap_cons]
        exact ih db hrest
      | some n =>
        simp only [DB.Load, DB.handleRecord, parseRecordRow, hA, decodeRows,
          List.filterMap_cons]
        exact ih _ hrest

/-- Rows for the C5 witness: one skipped row, one added row. -/
def rowsC5 : List (List String) := [["a", "x", "h"], ["b", "2", "h2"]]

theorem c5_loadTolerant_witness :
    (∀ row ∈ rowsC5, 3 ≤ row.length) ∧
      NewDB.Load rowsC5 = some ((decodeRows rowsC5).foldl
        (fun d t => d.add t.1 t.2.1 t.2.2 (pathToSearchTerms t.1)) NewDB) :=
  ⟨by decide, c5_loadTolerant NewDB rowsC5 (by decide)⟩

/-! ## Claim C10: store deletion precedes the filesystem deletion -/

/-- C10: for a valid 1-based index the record is removed from Files no
matter what the filesystem deletion answers, and the subsequently written
catalog contains no row for the removed path. -/
theorem c10_deleteUnconditional (db : DB) (ids : List String) (num : String)
    (fsRemove : String → Bool) (index : Int)
    (hnum : goAtoi (goTrimSpace num) = some index)
    (h1 : 1 ≤ index) (h2 : index ≤ (ids.length : Int))
    (hwf : ∀ e ∈ db.Files, e.2.Path = e.1) :
    (db.deleteFile ids num fsRemove).1.Files
        = aerase db.Files (ids.getD (index.toNat - 1) "") ∧
      ∀ row ∈ (db.deleteFile ids num fsRemove).1.Write,
        row.head? ≠ some (ids.getD (index.toNat - 1) "") := by
  have hcond : ¬(index < 1 ∨ index > (ids.length : Int)) := by omega
  constructor
  · simp only [DB.deleteFile, hnum, if_neg hcond]
  · intro row hrow
    simp only [DB.deleteFile, hnum, if_neg hcond] at hrow
    simp only [DB.Write, List.mem_map] at hrow
    obtain ⟨e, he, rfl⟩ := hrow
    have hmem := mem_aerase he
    have hpath : e.2.Path = e.1 := hwf e hmem.1
    simp only [List.head?]
    intro hcontra
    apply hmem.2
    rw [← hpath]
    exact Option.some.inj hcontra

/-- Store for the C10 witness. -/
def dbC10 : DB := NewDB.add "a" 1 "h" (pathToSearchTerms "a")

theorem c10_deleteUnconditional_witness :
    (goAtoi (goTrimSpace "1") = some 1) ∧
      ((dbC10.deleteFile ["a"] "1" fun _ => false).1.Files
          = aerase dbC10.Files (["a"].getD ((1 : Int).toNat - 1) "") ∧
        ∀ row ∈ (dbC10.deleteFile ["a"] "1" fun _ => false).1.Write,
          row.head? ≠ some (["a"].getD ((1 : Int).toNat - 1) "")) :=
  ⟨by decide, c10_deleteUnconditional dbC10 ["a"] "1" (fun _ => false) 1 (by decide)
    (by decide) (by decide) (by decide)⟩

/-! ## Scan lemmas -/

theorem scanAdds_lookup_preserved (fsinfo : String → Option (Int × String))
    (files : List String) (db : DB) (p : String) (r : Record)
    (h : alookup db.Files p = some r) :
    alookup (scanAdds fsinfo db files).1.Files p = some r := by
  induction files generalizing db with
  | nil => exact h
  | cons f rest ih =>
    by_cases hf : (alookup db.Files f).isSome = true
    · simp only [scanAdds, if_pos hf]
      exact ih db h
    · simp only [scanAdds, if_neg hf]
      cases hm : db.handleMatch fsinfo f with
      | none => exact ih db h
      | some d2 =>
        have hfp : f ≠ p := by
          intro e
          subst e
          rw [h] at hf
          simp at hf
        have h2 : alookup d2.Files p = some r := by
          unfold DB.handleMatch at hm
          cases hfs : fsinfo f with
          | none => rw [hfs] at hm; cases hm
          | some v =>
            rw [hfs] at hm
            obtain ⟨sz, hsh⟩ := v
            cases hm
            show alookup (aupsert db.Files f _) p = some r
            rw [alookup_aupsert_ne _ _ _ _ hfp]
            exact h
        exact ih d2 h2

theorem scanAdds_isSome_preserved (fsinfo : String → Option (Int × String))
    (files : List String) (db : DB) (p : String)
    (h : (alookup db.Files p).isSome) :
    (alookup (scanAdds fsinfo db files).1.Files p).isSome := by
  obtain ⟨r, hr⟩ := Option.isSome_iff_exists.mp h
  rw [scanAdds_lookup_preserved fsinfo files db p r hr]
  rfl

theorem scanAdds_mem_isSome (fsinfo : String → Option (Int × String))
    (files : List String) (db : DB) (f : String) (hf : f ∈ files)
    (hfs : (fsinfo f).isSome) :
    (alookup (scanAdds fsinfo db files).1.Files f).isSome := by
  induction files generalizing db with
  | nil => cases hf
  | cons g rest ih =>
    by_cases hg : (alookup db.Files g).isSome = true
    · simp only [scanAdds, if_pos hg]
      rcases List.mem_cons.mp hf with rfl | hf'
      · exact scanAdds_isSome_preserved fsinfo rest db f hg
      · exact ih db hf'
    · simp only [scanAdds, if_neg hg]
      cases hm : db.handleMatch fsinfo g with
      | none =>
        rcases List.mem_cons.mp hf with rfl | hf'
        · exfalso
          unfold DB.handleMatch at hm
          obtain ⟨v, hv⟩ := Option.isSome_iff_exists.mp hfs
          rw [hv] at hm
          obtain ⟨sz, hsh⟩ := v
          cases hm
        · exact ih db hf'
      | some d2 =>
        rcases List.mem_cons.mp hf with rfl | hf'
        · have h2 : (alookup d2.Files f).isSome := by
            unfold DB.handleMatch at hm
            cases hv : fsinfo f with
            | none => rw [hv] at hm; cases hm
            | some v =>
              rw [hv] at hm
              obtain ⟨sz, hsh⟩ := v
              cases hm
              show (alookup (aupsert db.Files f _) f).isSome
              rw [alookup_aupsert_self]
              rfl
          exact scanAdds_isSome_preserved fsinfo rest d2 f h2
        · exact ih d2 hf'

theorem scanAdds_all_present (fsinfo : String → Option (Int × String))
    (files : List String) (db : DB)
    (h : ∀ f ∈ files, (alookup db.Files f).isSome) :
    scanAdds fsinfo db files = (db, files.length, 0) := by
  induction files with
  | nil => rfl
  | cons f rest ih =>
    have hf : (alookup db.Files f).isSome = true := h f (List.mem_cons_self _ _)
    simp only [scanAdds, if_pos hf]
    rw [ih fun g hg => h g (List.mem_cons_of_mem _ hg)]
    rfl

theorem scanAdds_filesWF (fsinfo : String → Option (Int × String))
    (files : List String) (db : DB) (h : filesWF db.Files) :
    filesWF (scanAdds fsinfo db files).1.Files := by
  induction files generalizing db with
  | nil => exact h
  | cons f rest ih =>
    by_cases hf : (alookup db.Files f).isSome = true
    · simp only [scanAdds, if_pos hf]
      exact ih db h
    · simp only [scanAdds, if_neg hf]
      cases hm : db.handleMatch fsinfo f with
      | none => exact ih db h
      | some d2 =>
        have h2 : filesWF d2.Files := by
          unfold DB.handleMatch at hm
          cases hv : fsinfo f with
          | none => rw [hv] at hm; cases hm
          | some v =>
            rw [hv] at hm
            obtain ⟨sz, hsh⟩ := v
            cases hm
            exact filesWF_add db f sz hsh (pathToSearchTerms f) h
        exact ih d2 h2

theorem alookup_filter [DecidableEq κ] {m : List (κ × ν)} (q : κ × ν → Bool) {k : κ} {v : ν}
    (hnd : (akeys m).Nodup) (h : alookup m k = some v) :
    alookup (m.filter q) k = if q (k, v) then some v else none := by
  induction m with
  | nil => cases h
  | cons e rest ih =>
    simp only [akeys, List.map_cons, List.nodup_cons] at hnd
    by_cases he : e.1 = k
    · obtain ⟨k', v'⟩ := e
      simp only at he
      subst he
      simp only [alookup, if_pos rfl] at h
      cases h
      by_cases hq : q (k', v) = true
      · simp only [List.filter_cons, hq, if_pos rfl]
        simp [alookup]
      · simp only [List.filter_cons, hq]
        simp only [Bool.false_eq_true, if_false, hq, if_false]
        rw [alookup_eq_none]
        intro hmem
        apply hnd.1
        simp only [akeys, List.mem_map] at hmem
        obtain ⟨e2, he2, hfst⟩ := hmem
        exact List.mem_map.mpr ⟨e2, (List.mem_filter.mp he2).1, hfst⟩
    · simp only [alookup, if_neg he] at h
      by_cases hq : q e = true
      · simp only [List.filter_cons, hq, if_pos rfl, alookup, if_neg he]
        exact ih hnd.2 h
      · simp only [List.filter_cons, hq, Bool.false_eq_true, if_false]
        exact ih hnd.2 h

/-! ## Claim C3: the deletion scope of a scan root -/

/-- Store holding the single record at path /a/bc/x, whose path has /a/b
as a raw string prefix without a separator boundary. -/
def dbC3 : DB := NewDB.add "/a/bc/x" 1 "h" (pathToSearchTerms "/a/bc/x")

/-- C3 counterexample: scanning the root /a/b with an empty enumeration
removes the record /a/bc/x from the store and reports one deletion,
although /a/b is not a path-separator-aware prefix of /a/bc/x (appending
the separator destroys prefixhood), which the claim says can never cause
a removal. -/
theorem c3_counterexample :
    alookup (dbC3.handleMatches "/a/b" [] fun _ => none).1.Files "/a/bc/x" = none ∧
      (dbC3.handleMatches "/a/b" [] fun _ => none).2.2.2 = 1 ∧
      startsWithGo "/a/bc/x" "/a/b" = true ∧
      startsWithGo "/a/bc/x" "/a/b/" = false := by
  decide

/-- C3 amended: the records a scan of root r removes are exactly the
pre-existing records whose path has r as a raw string prefix
(strings.HasPrefix, no separator awareness) and that were absent from
this scan enumeration. -/
theorem c3_scanRemovalIsRawPrefix (db : DB) (root : String) (files : List String)
    (fsinfo : String → Option (Int × String)) (p : String) (r : Record)
    (hwf : filesWF db.Files) (hp : alookup db.Files p = some r) :
    alookup (db.handleMatches root files fsinfo).1.Files p = none ↔
      startsWithGo p root = true ∧ files.contains p = false := by
  have h1 : alookup (scanAdds fsinfo db files).1.Files p = some r :=
    scanAdds_lookup_preserved fsinfo files db p r hp
  have hwf1 : filesWF (scanAdds fsinfo db files).1.Files :=
    scanAdds_filesWF fsinfo files db hwf
  have hpath : r.Path = p := hwf1.2 _ (alookup_mem _ _ _ h1)
  show alookup ((scanAdds fsinfo db files).1.Files.filter
      fun e => !scanVictim root files e.2) p = none ↔ _
  rw [alookup_filter _ hwf1.1 h1]
  unfold scanVictim
  rw [hpath]
  by_cases hpre : startsWithGo p root = true
  · by_cases hcon : files.contains p = true
    · simp [hpre, hcon]
    · simp only [Bool.not_eq_true] at hcon
      simp [hpre, hcon]
  · simp only [Bool.not_eq_true] at hpre
    simp [hpre]

theorem c3_scanRemovalIsRawPrefix_witness :
    filesWF dbC3.Files ∧
      (alookup (dbC3.handleMatches "/a/b" [] fun _ => none).1.Files "/a/bc/x" = none ↔
        startsWithGo "/a/bc/x" "/a/b" = true ∧ ([] : List String).contains "/a/bc/x" = false) :=
  ⟨by decide, c3_scanRemovalIsRawPrefix dbC3 "/a/b" [] (fun _ => none) "/a/bc/x"
    ⟨"/a/bc/x", 1, "h", pathToSearchTerms "/a/bc/x"⟩ (by decide) (by decide)⟩

/-! ## Claim C6: rescan idempotence -/

/-- Unfolding equation for handleMatches. -/
theorem handleMatches_eq (db : DB) (root : String) (files : List String)
    (fsinfo : String → Option (Int × String)) :
    db.handleMatches root files fsinfo =
      (⟨(scanAdds fsinfo db files).1.Files.filter fun e => !scanVictim root files e.2,
        (scanAdds fsinfo db files).1.Sizes, (scanAdds fsinfo db files).1.Hashes,
        (scanAdds fsinfo db files).1.SearchTerms⟩,
       (scanAdds fsinfo db files).2.1, (scanAdds fsinfo db files).2.2,
       ((scanAdds fsinfo db files).1.Files.filter
         fun e => scanVictim root files e.2).length) := rfl

/-- C6: scanning an unchanged root a second time reports skipped equal to
the enumerated file count, created zero and deleted zero, and returns the
store unchanged, provided the filesystem collaborator answers for every
enumerated file (the condition under which the first scan cataloged
them). -/
theorem c6_rescanIdempotent (db : DB) (root : String) (files : List String)
    (fsinfo : String → Option (Int × String))
    (hwf : filesWF db.Files) (hfs : ∀ f ∈ files, (fsinfo f).isSome) :
    (db.handleMatches root files fsinfo).1.handleMatches root files fsinfo
      = ((db.handleMatches root files fsinfo).1, files.length, 0, 0) := by
  have hwfS : filesWF (scanAdds fsinfo db files).1.Files := scanAdds_filesWF fsinfo files db hwf
  set db1 := (db.handleMatches root files fsinfo).1 with hdb1
  have hfiles1 : db1.Files = (scanAdds fsinfo db files).1.Files.filter
      (fun e => !scanVictim root files e.2) := rfl
  have hmem : ∀ e ∈ db1.Files, scanVictim root files e.2 = false := by
    intro e he
    rw [hfiles1] at he
    have h2 := (List.mem_filter.mp he).2
    simpa using h2
  have hpresent : ∀ f ∈ files, (alookup db1.Files f).isSome := by
    intro f hf
    have hs := scanAdds_mem_isSome fsinfo files db f hf (hfs f hf)
    obtain ⟨r, hr⟩ := Option.isSome_iff_exists.mp hs
    have hpath : r.Path = f := hwfS.2 _ (alookup_mem _ _ _ hr)
    have hvic : scanVictim root files r = false := by
      unfold scanVictim
      rw [hpath]
      have hcon : files.contains f = true := List.elem_eq_true_of_mem hf
      rw [hcon]
      exact Bool.and_false _
    rw [hfiles1, alookup_filter _ hwfS.1 hr]
    simp [hvic]
  have hrem : db1.Files.filter (fun e => scanVictim root files e.2) = [] :=
    List.filter_eq_nil_iff.mpr fun e he => by simp [hmem e he]
  have hkept : db1.Files.filter (fun e => !scanVictim root files e.2) = db1.Files :=
    List.filter_eq_self.mpr fun e he => by simp [hmem e he]
  rw [handleMatches_eq db1, scanAdds_all_present fsinfo files db1 hpresent]
  simp only [hrem, hkept, List.length_nil]

/-- Store, root and collaborator for the C6 witness. -/
def fsC6 : String → Option (Int × String) := fun _ => some (1, "h")

theorem c6_rescanIdempotent_witness :
    (filesWF NewDB.Files ∧ ∀ f ∈ ["r/x", "r/y"], (fsC6 f).isSome) ∧
      (NewDB.handleMatches "r" ["r/x", "r/y"] fsC6).1.handleMatches "r" ["r/x", "r/y"] fsC6
        = ((NewDB.handleMatches "r" ["r/x", "r/y"] fsC6).1, (["r/x", "r/y"] : List String).length, 0, 0) :=
  ⟨⟨by decide, by intro f _; rfl⟩,
    c6_rescanIdempotent NewDB "r" ["r/x", "r/y"] fsC6 (by decide) (by intro f _; rfl)⟩

/-! ## Claim C4: ordering, cap and truncation notice of the result display -/

theorem PrintIDs_take (ids : List String) :
    (if ids.length > maxLines then ids.take maxLines else ids) = ids.take maxLines := by
  split
  · rfl
  · exact (List.take_of_length_le (by omega)).symm

theorem PrintIDs_perm (ids : List String) : (PrintIDs ids).1.Perm (ids.take maxLines) := by
  show (sortStrings (if ids.length > maxLines then ids.take maxLines else ids)).Perm _
  rw [PrintIDs_take]
  exact List.perm_insertionSort _ _

/-- Result lists for the C4 counterexample: one hundred distinct ids, and
one hundred and one distinct ids arriving in descending enumeration
order with the path-least id last. -/
def idsA : List String := (List.range maxLines).map fun n => goItoa n

/-- Hundred-and-one distinct ids, reversed so that the least one is last. -/
def idsB : List String := ((List.range (maxLines + 1)).map fun n => goItoa n).reverse

/-- C4 counterexample, two defects at explicit inputs: a result set of
exactly one hundred entries gets the truncation notice although the set
does not exceed one hundred, and on a hundred-and-one-entry result set
the path-least entry 0 is dropped although the claim puts the first one
hundred entries in path order on display, which includes the least. -/
theorem c4_counterexample :
    ((PrintIDs idsA).2 = true ∧ idsA.length = 100) ∧
      (idsB.length = 101 ∧ "0" ∈ idsB ∧ (∀ s ∈ idsB, strLe "0" s) ∧
        "0" ∉ (PrintIDs idsB).1) := by
  refine ⟨⟨by decide, by decide⟩, by decide, by decide, by decide, ?_⟩
  intro hmem
  have h2 := (PrintIDs_perm idsB).mem_iff.mp hmem
  revert h2
  decide

/-- C4 amended: the displayed list is the incoming id list truncated to
its first hundred entries and then sorted by path: it is a path-sorted
permutation of that truncation, holds at most a hundred entries, and the
truncation notice appears exactly when the incoming list has at least a
hundred entries. -/
theorem c4_displayProperties (ids : List String) :
    (PrintIDs ids).1.Perm (ids.take maxLines) ∧
      (PrintIDs ids).1.Sorted strLe ∧
      (PrintIDs ids).1.length ≤ maxLines ∧
      ((PrintIDs ids).2 = true ↔ maxLines ≤ ids.length) := by
  refine ⟨PrintIDs_perm ids, ?_, ?_, ?_⟩
  · show (sortStrings _).Sorted strLe
    exact List.sorted_insertionSort _ _
  · have hlen : (PrintIDs ids).1.length = (ids.take maxLines).length :=
      (PrintIDs_perm ids).length_eq
    rw [hlen, List.length_take]
    omega
  · show decide ((if ids.length > maxLines then ids.take maxLines else ids).length ≥ maxLines)
        = true ↔ _
    rw [PrintIDs_take, List.length_take]
    constructor
    · intro h
      have := of_decide_eq_true h
      omega
    · intro h
      exact decide_eq_true (by omega)

/-! ## Claim C7: multi-token search is intersection -/

theorem mem_foldl_collect (st : List (String × List String)) (needle : String)
    (acc : List String) (id : String) :
    (id ∈ st.foldl (fun found e => if containsGo e.1 needle then found ++ e.2 else found) acc) ↔
      id ∈ acc ∨ ∃ e ∈ st, containsGo e.1 needle = true ∧ id ∈ e.2 := by
  induction st generalizing acc with
  | nil => simp
  | cons e rest ih =>
    simp only [List.foldl_cons]
    by_cases hc : containsGo e.1 needle = true
    · rw [if_pos hc, ih]
      simp only [List.mem_append, List.mem_cons, hc]
      constructor
      · rintro ((h | h) | h)
        · exact Or.inl h
        · exact Or.inr ⟨e, Or.inl rfl, hc, h⟩
        · obtain ⟨f, hf, hcf, hidf⟩ := h
          exact Or.inr ⟨f, Or.inr hf, hcf, hidf⟩
      · rintro (h | ⟨f, hf | hf, hcf, hidf⟩)
        · exact Or.inl (Or.inl h)
        · subst hf
          exact Or.inl (Or.inr hidf)
        · exact Or.inr ⟨f, hf, hcf, hidf⟩
    · rw [if_neg hc, ih]
      constructor
      · rintro (h | ⟨f, hf, hcf, hidf⟩)
        · exact Or.inl h
        · exact Or.inr ⟨f, List.mem_cons_of_mem _ hf, hcf, hidf⟩
      · rintro (h | ⟨f, hf, hcf, hidf⟩)
        · exact Or.inl h
        · rcases List.mem_cons.mp hf with rfl | hf
          · exact absurd hcf hc
          · exact Or.inr ⟨f, hf, hcf, hidf⟩

theorem mem_collectContains (st : List (String × List String)) (needle id : String) :
    id ∈ collectContains st needle ↔
      ∃ e ∈ st, containsGo e.1 needle = true ∧ id ∈ e.2 := by
  unfold collectContains
  rw [mem_foldl_collect]
  simp

theorem mem_intersectIDs (a b : List String) (id : String) :
    id ∈ intersectIDs a b ↔ id ∈ a ∧ id ∈ b := by
  unfold intersectIDs
  rw [List.mem_filter]
  constructor
  · exact fun h => ⟨h.1, List.mem_of_elem_eq_true h.2⟩
  · exact fun h => ⟨h.1, List.elem_eq_true_of_mem h.2⟩

theorem mem_foldl_intersect (rest : List (List String)) (g : List String) (id : String) :
    id ∈ rest.foldl intersectIDs g ↔ id ∈ g ∧ ∀ b ∈ rest, id ∈ b := by
  induction rest generalizing g with
  | nil => simp
  | cons b rest ih =>
    simp only [List.foldl_cons]
    rw [ih, mem_intersectIDs]
    constructor
    · rintro ⟨⟨h1, h2⟩, h3⟩
      refine ⟨h1, fun x hx => ?_⟩
      rcases List.mem_cons.mp hx with rfl | hx
      · exact h2
      · exact h3 x hx
    · rintro ⟨h1, h2⟩
      exact ⟨⟨h1, h2 b (List.mem_cons_self _ _)⟩, fun x hx => h2 x (List.mem_cons_of_mem _ hx)⟩

theorem slowCollectAux_all (st : List (String × List String)) (ts : List String)
    (h : ∀ t ∈ ts, collectContains st t ≠ []) :
    slowCollectAux st ts = some (ts.map (collectContains st)) := by
  induction ts with
  | nil => rfl
  | cons t rest ih =>
    have hne : ¬((collectContains st t).isEmpty = true) := by
      cases hc : collectContains st t with
      | nil => exact absurd hc (h t (List.mem_cons_self _ _))
      | cons a l => simp [hc]
    simp only [slowCollectAux, if_neg hne]
    rw [ih fun t ht => h t (List.mem_cons_of_mem _ ht)]
    rfl

theorem slowCollectAux_abort (st : List (String × List String)) (ts : List String)
    (t : String) (ht : t ∈ ts) (h : collectContains st t = []) :
    slowCollectAux st ts = none := by
  induction ts with
  | nil => cases ht
  | cons u rest ih =>
    rcases List.mem_cons.mp ht with rfl | ht'
    · simp [slowCollectAux, h]
    · simp only [slowCollectAux]
      by_cases hu : (collectContains st u).isEmpty = true
      · rw [if_pos hu]
      · rw [if_neg hu, ih ht']
        rfl

/-- Store for the C7 example, loaded with the four records of the
specification scenario. -/
def dbC7 : DB :=
  (((NewDB.add "foo-756381984.txt" 1 "h1" (pathToSearchTerms "foo-756381984.txt")).add
    "bar-1786396036.txt" 2 "h2" (pathToSearchTerms "bar-1786396036.txt")).add
    "baz.txt" 3 "h3" (pathToSearchTerms "baz.txt")).add
    "quix-1786396036.txt" 4 "h4" (pathToSearchTerms "quix-1786396036.txt")

/-- C7: a slow-mode multi-token search returns exactly the ids matching
every token, a token matching a stored term by substring containment; and
on the four-record scenario the query bar, 1786396036 returns exactly the
record bar-1786396036.txt. -/
theorem c7_searchIntersection :
    (∀ (db : DB) (ts : List String) (id : String), ts ≠ [] →
        (id ∈ db.SearchSlow ts ↔
          ∀ t ∈ ts, ∃ e ∈ db.SearchTerms, containsGo e.1 t = true ∧ id ∈ e.2)) ∧
      dbC7.SearchSlow ["bar", "1786396036"] = ["bar-1786396036.txt"] := by
  constructor
  · intro db ts id hne
    by_cases hall : ∀ t ∈ ts, collectContains db.SearchTerms t ≠ []
    · have hcol : db.slowCollectIDs ts = ts.map (collectContains db.SearchTerms) := by
        unfold DB.slowCollectIDs
        rw [slowCollectAux_all _ _ hall]
        rfl
      unfold DB.SearchSlow
      rw [hcol]
      cases ts with
      | nil => exact absurd rfl hne
      | cons t rest =>
        show id ∈ (rest.map (collectContains db.SearchTerms)).foldl intersectIDs
            (collectContains db.SearchTerms t) ↔ _
        rw [mem_foldl_intersect]
        constructor
        · rintro ⟨h1, h2⟩ t' ht'
          rcases List.mem_cons.mp ht' with rfl | ht'
          · exact (mem_collectContains _ _ _).mp h1
          · exact (mem_collectContains _ _ _).mp (h2 _ (List.mem_map_of_mem _ ht'))
        · intro hforall
          refine ⟨(mem_collectContains _ _ _).mpr (hforall t (List.mem_cons_self _ _)), ?_⟩
          intro g hg
          obtain ⟨t', ht', rfl⟩ := List.mem_map.mp hg
          exact (mem_collectContains _ _ _).mpr (hforall t' (List.mem_cons_of_mem _ ht'))
    · push_neg at hall
      obtain ⟨t, ht, hempty⟩ := hall
      have hnone : db.slowCollectIDs ts = [] := by
        unfold DB.slowCollectIDs
        rw [slowCollectAux_abort _ _ t ht hempty]
        rfl
      unfold DB.SearchSlow
      rw [hnone]
      show id ∈ ([] : List String) ↔ _
      constructor
      · intro h
        cases h
      · intro hforall
        exfalso
        obtain ⟨e, he, hc, hid⟩ := hforall t ht
        have hmem : id ∈ collectContains db.SearchTerms t :=
          (mem_collectContains _ _ _).mpr ⟨e, he, hc, hid⟩
        rw [hempty] at hmem
        cases hmem
  · decide

theorem c7_searchIntersection_witness :
    ("bar-1786396036.txt" ∈ dbC7.SearchSlow ["bar"] ↔
      ∀ t ∈ ["bar"], ∃ e ∈ dbC7.SearchTerms,
        containsGo e.1 t = true ∧ "bar-1786396036.txt" ∈ e.2) :=
  c7_searchIntersection.1 dbC7 ["bar"] "bar-1786396036.txt" (by decide)

/-! ## Claim C9: lemmas on group keys and grouping by key -/

theorem stringDataInj {a b : String} (h : a.data = b.data) : a = b := by
  cases a
  cases b
  exact congrArg String.mk h

theorem goItoa_inj {a b : Int} (h : goItoa a = goItoa b) : a = b := by
  have h2 := goAtoi_goItoa a
  rw [h, goAtoi_goItoa b] at h2
  exact (Option.some.inj h2).symm

theorem dashFree_natToDec (n : Nat) : '-' ∉ natToDec n := by
  intro hm
  have h2 := natToDec_mem_range hm
  have h45 : ('-').toNat = 45 := rfl
  omega

theorem append_sep_inj : ∀ (a b x y : List Char), '-' ∉ x → '-' ∉ y →
    a ++ '-' :: x = b ++ '-' :: y → a = b ∧ x = y
  | [], [], x, y, _, _, h => ⟨rfl, by simpa using h⟩
  | [], c :: b', x, y, hx, _, h => by
    rw [List.nil_append, List.cons_append] at h
    obtain ⟨h1, h2⟩ := List.cons.inj h
    subst h2
    exact absurd (List.mem_append_right b' (List.mem_cons_self _ _)) hx
  | c :: a', [], x, y, _, hy, h => by
    rw [List.nil_append, List.cons_append] at h
    obtain ⟨h1, h2⟩ := List.cons.inj h
    rw [← h2] at hy
    exact absurd (List.mem_append_right a' (List.mem_cons_self _ _)) hy
  | c :: a', b :: b', x, y, hx, hy, h => by
    rw [List.cons_append, List.cons_append] at h
    obtain ⟨h1, h2⟩ := List.cons.inj h
    obtain ⟨ha, hxy⟩ := append_sep_inj a' b' x y hx hy h2
    exact ⟨by rw [h1, ha], hxy⟩

theorem goItoa_nonneg_data {s : Int} (hs : 0 ≤ s) : (goItoa s).data = natToDec s.natAbs := by
  unfold goItoa
  rw [if_neg (by omega)]

theorem mkGroupKey_data (h : String) (s : Int) :
    (mkGroupKey h s).data = h.data ++ '-' :: (goItoa s).data := by
  unfold mkGroupKey
  rw [String.data_append, String.data_append]
  simp

theorem mkGroupKey_inj {h1 h2 : String} {s1 s2 : Int} (hs1 : 0 ≤ s1) (hs2 : 0 ≤ s2)
    (he : mkGroupKey h1 s1 = mkGroupKey h2 s2) : h1 = h2 ∧ s1 = s2 := by
  have hd := congrArg String.data he
  rw [mkGroupKey_data, mkGroupKey_data, goItoa_nonneg_data hs1, goItoa_nonneg_data hs2] at hd
  obtain ⟨hh, hss⟩ := append_sep_inj _ _ _ _ (dashFree_natToDec _) (dashFree_natToDec _) hd
  refine ⟨stringDataInj hh, ?_⟩
  apply goItoa_inj
  apply stringDataInj
  rw [goItoa_nonneg_data hs1, goItoa_nonneg_data hs2, hss]

theorem mkGroupKey_size_inj {h : String} {s1 s2 : Int}
    (he : mkGroupKey h s1 = mkGroupKey h s2) : s1 = s2 := by
  have hd := congrArg String.data he
  rw [mkGroupKey_data, mkGroupKey_data] at hd
  have h2 := List.append_cancel_left hd
  exact goItoa_inj (stringDataInj (List.cons.inj h2).2)

theorem alookup_isSome_iff [DecidableEq κ] (m : List (κ × ν)) (k : κ) :
    (alookup m k).isSome = true ↔ k ∈ akeys m := by
  constructor
  · intro hs
    obtain ⟨v, hv⟩ := Option.isSome_iff_exists.mp hs
    exact List.mem_map.mpr ⟨(k, v), alookup_mem _ _ _ hv, rfl⟩
  · intro hk
    cases h : alookup m k with
    | none => exact absurd hk ((alookup_eq_none m k).mp h)
    | some v => rfl

theorem foldl_aappend_alookup [DecidableEq κ] (f : α → κ) (xs : List α)
    (m : List (κ × List α)) (k : κ) :
    alookup (xs.foldl (fun m x => aappend m (f x) x) m) k =
      if k ∈ akeys m ∨ k ∈ xs.map f then
        some ((alookup m k).getD [] ++ xs.filter fun x => decide (f x = k))
      else none := by
  induction xs generalizing m with
  | nil =>
    simp only [List.foldl_nil, List.map_nil, List.not_mem_nil, or_false, List.filter_nil,
      List.append_nil]
    by_cases hk : k ∈ akeys m
    · rw [if_pos hk]
      obtain ⟨v, hv⟩ := Option.isSome_iff_exists.mp ((alookup_isSome_iff m k).mpr hk)
      rw [hv]
      rfl
    · rw [if_neg hk]
      exact (alookup_eq_none m k).mpr hk
  | cons x xs ih =>
    simp only [List.foldl_cons]
    rw [ih]
    by_cases hfx : f x = k
    · have hmem : k ∈ akeys (aappend m (f x) x) := by
        unfold aappend
        rw [akeys_aupsert, hfx]
        split
        · assumption
        · exact List.mem_append_right _ (List.mem_cons_self _ _)
      have hlook : alookup (aappend m (f x) x) k = some ((alookup m k).getD [] ++ [x]) := by
        unfold aappend
        rw [hfx]
        exact alookup_aupsert_self _ _ _
      rw [if_pos (Or.inl hmem), hlook]
      rw [if_pos (Or.inr (List.mem_map.mpr ⟨x, List.mem_cons_self _ _, hfx⟩))]
      have hfc : (x :: xs).filter (fun x => decide (f x = k))
          = x :: xs.filter fun x => decide (f x = k) := by
        rw [List.filter_cons]
        simp [hfx]
      rw [hfc]
      simp only [Option.getD_some]
      rw [List.append_assoc]
      rfl
    · have hlook : alookup (aappend m (f x) x) k = alookup m k := by
        unfold aappend
        exact alookup_aupsert_ne _ _ _ _ hfx
      have hmem : (k ∈ akeys (aappend m (f x) x)) ↔ k ∈ akeys m := by
        unfold aappend
        rw [akeys_aupsert]
        split
        · exact Iff.rfl
        · constructor
          · intro hh
            rcases List.mem_append.mp hh with hh | hh
            · exact hh
            · simp only [List.mem_singleton] at hh
              exact absurd hh.symm hfx
          · exact fun hh => List.mem_append_left _ hh
      have hfilter : (x :: xs).filter (fun x => decide (f x = k))
          = xs.filter fun x => decide (f x = k) := by
        rw [List.filter_cons]
        simp [hfx]
      have hmapc : (k ∈ (x :: xs).map f) ↔ k ∈ xs.map f := by
        simp only [List.map_cons, List.mem_cons]
        constructor
        · rintro (h | h)
          · exact absurd h.symm hfx
          · exact h
        · exact Or.inr
      rw [hlook, hfilter]
      by_cases hcond : k ∈ akeys m ∨ k ∈ xs.map f
      · have hcondL : k ∈ akeys (aappend m (f x) x) ∨ k ∈ xs.map f := by
          rcases hcond with h | h
          · exact Or.inl (hmem.mpr h)
          · exact Or.inr h
        have hcondR : k ∈ akeys m ∨ k ∈ (x :: xs).map f := by
          rcases hcond with h | h
          · exact Or.inl h
          · exact Or.inr (hmapc.mpr h)
        rw [if_pos hcondL, if_pos hcondR]
      · have hcondL : ¬(k ∈ akeys (aappend m (f x) x) ∨ k ∈ xs.map f) := by
          intro hh
          apply hcond
          rcases hh with h | h
          · exact Or.inl (hmem.mp h)
          · exact Or.inr h
        have hcondR : ¬(k ∈ akeys m ∨ k ∈ (x :: xs).map f) := by
          intro hh
          apply hcond
          rcases hh with h | h
          · exact Or.inl h
          · exact Or.inr (hmapc.mp h)
        rw [if_neg hcondL, if_neg hcondR]

theorem groupByKey_alookup [DecidableEq κ] (f : α → κ) (xs : List α) (k : κ) :
    alookup (groupByKey f xs) k =
      if k ∈ xs.map f then some (xs.filter fun x => decide (f x = k)) else none := by
  unfold groupByKey
  rw [foldl_aappend_alookup]
  simp [akeys, alookup]

theorem groupByKey_NK [DecidableEq κ] (f : α → κ) (xs : List α) :
    (akeys (groupByKey f xs)).Nodup :=
  nodup_akeys_foldl_aappend f (fun x => x) xs [] (by simp [akeys])

theorem groupByKey_mem [DecidableEq κ] (f : α → κ) (xs : List α) (k : κ) (l : List α) :
    (k, l) ∈ groupByKey f xs ↔
      k ∈ xs.map f ∧ l = xs.filter fun x => decide (f x = k) := by
  constructor
  · intro h
    have hl := mem_alookup _ _ _ (groupByKey_NK f xs) h
    rw [groupByKey_alookup] at hl
    by_cases hk : k ∈ xs.map f
    · rw [if_pos hk] at hl
      exact ⟨hk, (Option.some.inj hl).symm⟩
    · rw [if_neg hk] at hl
      cases hl
  · rintro ⟨hk, rfl⟩
    apply alookup_mem
    rw [groupByKey_alookup, if_pos hk]

theorem nodupkeys_eq [DecidableEq κ] {m : List (κ × ν)} (hnd : (akeys m).Nodup)
    {e1 e2 : κ × ν} (h1 : e1 ∈ m) (h2 : e2 ∈ m) (hk : e1.1 = e2.1) : e1 = e2 := by
  obtain ⟨k1, v1⟩ := e1
  obtain ⟨k2, v2⟩ := e2
  simp only at hk
  subst hk
  have l1 := mem_alookup _ _ _ hnd h1
  have l2 := mem_alookup _ _ _ hnd h2
  rw [l1] at l2
  rw [Option.some.inj l2]

theorem aupsert_not_mem [DecidableEq κ] (m : List (κ × ν)) (k : κ) (v : ν)
    (h : k ∉ akeys m) : aupsert m k v = m ++ [(k, v)] := by
  induction m with
  | nil => rfl
  | cons e rest ih =>
    simp only [akeys, List.map_cons, List.mem_cons, not_or] at h
    have hne : e.1 ≠ k := fun he => h.1 he.symm
    simp only [aupsert, if_neg hne, List.cons_append]
    rw [ih (by simpa [akeys] using h.2)]

theorem foldl_aupsert_fresh [DecidableEq κ] {β : Type} (key : α → κ) (val : α → β)
    (xs : List α) (acc : List (κ × β))
    (hnd : (xs.map key).Nodup) (hfresh : ∀ x ∈ xs, key x ∉ akeys acc) :
    xs.foldl (fun m x => aupsert m (key x) (val x)) acc
      = acc ++ xs.map fun x => (key x, val x) := by
  induction xs generalizing acc with
  | nil => simp
  | cons x xs ih =>
    simp only [List.foldl_cons, List.map_cons]
    rw [aupsert_not_mem _ _ _ (hfresh x (List.mem_cons_self _ _))]
    have hnd2 := List.nodup_cons.mp (show (key x :: xs.map key).Nodup from hnd)
    have hfresh2 : ∀ y ∈ xs, key y ∉ akeys (acc ++ [(key x, val x)]) := by
      intro y hy hmem
      simp only [akeys, List.map_append, List.mem_append, List.map_cons, List.map_nil,
        List.mem_singleton] at hmem
      rcases hmem with hmem | hmem
      · exact hfresh y (List.mem_cons_of_mem _ hy) (by simpa [akeys] using hmem)
      · exact hnd2.1 (hmem ▸ List.mem_map.mpr ⟨y, hy, rfl⟩)
    rw [ih (acc ++ [(key x, val x)]) hnd2.2 hfresh2, List.append_assoc]
    rfl

/-- Entries that one kept hash bucket contributes to the groups map. -/
def bucketEntries (files : List (String × Record)) (e : String × List String) :
    List (String × SearchGroup) :=
  (groupByKey (sizeOfID files) e.2).map fun se =>
    (mkGroupKey e.1 se.1, ⟨sortStrings se.2, [], SearchType.SizeAndHash⟩)

/-- Group keys that one hash bucket contributes. -/
def bucketKeys (files : List (String × Record)) (e : String × List String) : List String :=
  (groupByKey (sizeOfID files) e.2).map fun se => mkGroupKey e.1 se.1

theorem akeys_bucketEntries (files : List (String × Record)) (e : String × List String) :
    akeys (bucketEntries files e) = bucketKeys files e := by
  unfold akeys bucketEntries bucketKeys
  rw [List.map_map]
  rfl

theorem dup_fold_flat (files : List (String × Record)) (buckets : List (String × List String))
    (acc : List (String × SearchGroup))
    (hfresh : ∀ e ∈ buckets, ∀ kk ∈ bucketKeys files e, kk ∉ akeys acc)
    (hdisj : ((buckets.map (bucketKeys files)).flatten).Nodup) :
    buckets.foldl (fun groups e =>
        if e.2.length < 2 then groups
        else (groupByKey (sizeOfID files) e.2).foldl (fun gs se =>
          aupsert gs (mkGroupKey e.1 se.1) ⟨sortStrings se.2, [], SearchType.SizeAndHash⟩)
          groups) acc
      = acc ++ ((buckets.filter fun e => decide (¬ e.2.length < 2)).map
          (bucketEntries files)).flatten := by
  induction buckets generalizing acc with
  | nil => simp
  | cons e rest ih =>
    simp only [List.map_cons, List.flatten_cons] at hdisj
    have hsplit := List.nodup_append.mp hdisj
    have hd1 : (bucketKeys files e).Nodup := hsplit.1
    have hd2 : ((rest.map (bucketKeys files)).flatten).Nodup := hsplit.2.1
    have hdisj3 := hsplit.2.2
    simp only [List.foldl_cons]
    by_cases hlen : e.2.length < 2
    · rw [if_pos hlen]
      rw [ih acc (fun e' he' => hfresh e' (List.mem_cons_of_mem _ he')) hd2]
      have hfc : (e :: rest).filter (fun e => decide (¬ e.2.length < 2))
          = rest.filter fun e => decide (¬ e.2.length < 2) := by
        rw [List.filter_cons]
        simp [hlen]
      rw [hfc]
    · rw [if_neg hlen]
      have hd1' : ((groupByKey (sizeOfID files) e.2).map
          fun se => mkGroupKey e.1 se.1).Nodup := hd1
      have hfr : ∀ se ∈ groupByKey (sizeOfID files) e.2,
          mkGroupKey e.1 se.1 ∉ akeys acc := fun se hse =>
        hfresh e (List.mem_cons_self _ _) _ (List.mem_map.mpr ⟨se, hse, rfl⟩)
      have hinner : (groupByKey (sizeOfID files) e.2).foldl (fun gs se =>
            aupsert gs (mkGroupKey e.1 se.1)
              ⟨sortStrings se.2, [], SearchType.SizeAndHash⟩) acc
          = acc ++ bucketEntries files e :=
        foldl_aupsert_fresh (fun se => mkGroupKey e.1 se.1)
          (fun se => (⟨sortStrings se.2, [], SearchType.SizeAndHash⟩ : SearchGroup))
          (groupByKey (sizeOfID files) e.2) acc hd1' hfr
      rw [hinner]
      have hfresh2 : ∀ e' ∈ rest, ∀ kk ∈ bucketKeys files e',
          kk ∉ akeys (acc ++ bucketEntries files e) := by
        intro e' he' kk hkk hmem
        have : akeys (acc ++ bucketEntries files e) = akeys acc ++ bucketKeys files e := by
          unfold akeys
          rw [List.map_append, ← akeys_bucketEntries files e]
          rfl
        rw [this] at hmem
        rcases List.mem_append.mp hmem with hmem | hmem
        · exact hfresh e' (List.mem_cons_of_mem _ he') kk hkk hmem
        · exact hdisj3 hmem (List.mem_flatten.mpr ⟨bucketKeys files e',
            List.mem_map.mpr ⟨e', he', rfl⟩, hkk⟩)
      rw [ih (acc ++ bucketEntries files e) hfresh2 hd2]
      have hfc : (e :: rest).filter (fun e => decide (¬ e.2.length < 2))
          = e :: rest.filter fun e => decide (¬ e.2.length < 2) := by
        rw [List.filter_cons]
        simp [hlen]
      rw [hfc, List.map_cons, List.flatten_cons, List.append_assoc]

theorem bucketKeys_flatten_nodup (files : List (String × Record))
    (buckets : List (String × List String))
    (hnd : (akeys buckets).Nodup)
    (hsz : ∀ e ∈ buckets, ∀ s ∈ akeys (groupByKey (sizeOfID files) e.2), 0 ≤ s) :
    ((buckets.map (bucketKeys files)).flatten).Nodup := by
  rw [List.nodup_flatten]
  constructor
  · intro l hl
    obtain ⟨e, he, rfl⟩ := List.mem_map.mp hl
    unfold bucketKeys
    have hpnd : (groupByKey (sizeOfID files) e.2).Nodup :=
      (groupByKey_NK (sizeOfID files) e.2).of_map
    apply hpnd.map_on
    intro se1 hse1 se2 hse2 hkeq
    have hs := mkGroupKey_size_inj hkeq
    exact nodupkeys_eq (groupByKey_NK (sizeOfID files) e.2) hse1 hse2 hs
  · rw [List.pairwise_map]
    have hpw : buckets.Pairwise fun a b => a.1 ≠ b.1 := by
      have := hnd
      unfold akeys at this
      exact List.pairwise_map.mp this
    apply List.Pairwise.imp_of_mem ?_ hpw
    intro a b ha hb hne kk hka hkb
    unfold bucketKeys at hka hkb
    obtain ⟨se1, hse1, hk1⟩ := List.mem_map.mp hka
    obtain ⟨se2, hse2, hk2⟩ := List.mem_map.mp hkb
    have h01 : 0 ≤ se1.1 := hsz a ha se1.1 (List.mem_map.mpr ⟨se1, hse1, rfl⟩)
    have h02 : 0 ≤ se2.1 := hsz b hb se2.1 (List.mem_map.mpr ⟨se2, hse2, rfl⟩)
    rw [← hk2] at hk1
    exact hne (mkGroupKey_inj h01 h02 hk1).1

theorem sizes_nonneg_of_files (db : DB) (hsz : ∀ e ∈ db.Files, 0 ≤ e.2.Size) :
    ∀ e ∈ db.Hashes, ∀ s ∈ akeys (groupByKey (sizeOfID db.Files) e.2), 0 ≤ s := by
  intro e _ s hs
  have hsome := (alookup_isSome_iff _ s).mpr hs
  rw [groupByKey_alookup] at hsome
  by_cases hmem : s ∈ e.2.map (sizeOfID db.Files)
  · obtain ⟨id, _, rfl⟩ := List.mem_map.mp hmem
    unfold sizeOfID
    cases hl : alookup db.Files id with
    | none => simp
    | some r =>
      have := hsz (id, r) (alookup_mem _ _ _ hl)
      simpa using this
  · rw [if_neg hmem] at hsome
    cases hsome

theorem duplicatesBySizeAndHash_flat (db : DB)
    (hnd : (akeys db.Hashes).Nodup) (hsz : ∀ e ∈ db.Files, 0 ≤ e.2.Size) :
    db.duplicatesBySizeAndHash
      = ((db.Hashes.filter fun e => decide (¬ e.2.length < 2)).map
          (bucketEntries db.Files)).flatten := by
  have hflat := bucketKeys_flatten_nodup db.Files db.Hashes hnd
    (sizes_nonneg_of_files db hsz)
  unfold DB.duplicatesBySizeAndHash
  rw [dup_fold_flat db.Files db.Hashes []
    (by intro e _ kk _ hmem; simp [akeys] at hmem) hflat]
  rw [List.nil_append]

theorem duplicatesBySizeAndHash_NK (db : DB)
    (hnd : (akeys db.Hashes).Nodup) (hsz : ∀ e ∈ db.Files, 0 ≤ e.2.Size) :
    (akeys db.duplicatesBySizeAndHash).Nodup := by
  rw [duplicatesBySizeAndHash_flat db hnd hsz]
  have hmap : akeys (((db.Hashes.filter fun e => decide (¬ e.2.length < 2)).map
        (bucketEntries db.Files)).flatten)
      = (((db.Hashes.filter fun e => decide (¬ e.2.length < 2)).map
          (bucketKeys db.Files))).flatten := by
    unfold akeys
    rw [List.map_flatten, List.map_map]
    congr 1
    apply List.map_congr_left
    intro e _
    exact akeys_bucketEntries db.Files e
  rw [hmap]
  apply bucketKeys_flatten_nodup
  · have hsub : List.Sublist ((db.Hashes.filter fun e => decide (¬ e.2.length < 2)).map
        Prod.fst) (db.Hashes.map Prod.fst) := (List.filter_sublist _).map Prod.fst
    exact hnd.sublist hsub
  · intro e he s hs
    exact sizes_nonneg_of_files db hsz e (List.mem_filter.mp he).1 s hs

/-- Store for the C9 scenario: paths p1 and p3 share size and hash. -/
def dbC9 : DB :=
  (((NewDB.add "p1" 756381984 "H" (pathToSearchTerms "p1")).add
    "p2" 1786396036 "H2" (pathToSearchTerms "p2")).add
    "p3" 756381984 "H" (pathToSearchTerms "p3")).add
    "p4" 123 "H3" (pathToSearchTerms "p4")

/-- C9: on every store with well-formed indices (unique hash keys, the
sizes of cataloged files nonnegative) the size-and-hash pass yields one
group per hash bucket of at least two ids and size occurring in it,
keyed by the hash-size pair, with the ids of that size sorted; the group
map holds no duplicate keys; and the four-record scenario yields exactly
the one group with p1 and p3. -/
theorem c9_sizeHashGrouping :
    (∀ (db : DB), (akeys db.Hashes).Nodup → (∀ e ∈ db.Files, 0 ≤ e.2.Size) →
      (∀ (key : String) (g : SearchGroup),
        ((key, g) ∈ db.duplicatesBySizeAndHash ↔
          ∃ e ∈ db.Hashes, 2 ≤ e.2.length ∧ ∃ s ∈ e.2.map (sizeOfID db.Files),
            key = mkGroupKey e.1 s ∧
            g = ⟨sortStrings (e.2.filter fun id => decide (sizeOfID db.Files id = s)), [],
              SearchType.SizeAndHash⟩)) ∧
      (akeys db.duplicatesBySizeAndHash).Nodup) ∧
    dbC9.duplicatesBySizeAndHash
      = [(mkGroupKey "H" 756381984, ⟨["p1", "p3"], [], SearchType.SizeAndHash⟩)] := by
  constructor
  · intro db hnd hsz
    constructor
    · intro key g
      rw [duplicatesBySizeAndHash_flat db hnd hsz]
      constructor
      · intro hmem
        obtain ⟨l, hl, hmem2⟩ := List.mem_flatten.mp hmem
        obtain ⟨e, he, rfl⟩ := List.mem_map.mp hl
        have hef := List.mem_filter.mp he
        obtain ⟨se, hse, hkey⟩ := List.mem_map.mp hmem2
        obtain ⟨hsm, hfil⟩ := (groupByKey_mem _ _ _ _).mp hse
        have hk := Prod.mk.inj hkey
        refine ⟨e, hef.1, ?_, se.1, hsm, hk.1.symm, ?_⟩
        · have := of_decide_eq_true hef.2
          omega
        · rw [← hk.2, hfil]
      · rintro ⟨e, he, hlen, s, hs, hkey, hg⟩
        apply List.mem_flatten.mpr
        refine ⟨bucketEntries db.Files e,
          List.mem_map.mpr ⟨e, List.mem_filter.mpr ⟨he, decide_eq_true (by omega)⟩, rfl⟩, ?_⟩
        unfold bucketEntries
        apply List.mem_map.mpr
        refine ⟨(s, e.2.filter fun id => decide (sizeOfID db.Files id = s)), ?_, ?_⟩
        · exact (groupByKey_mem _ _ _ _).mpr ⟨hs, rfl⟩
        · rw [hkey, hg]
    · exact duplicatesBySizeAndHash_NK db hnd hsz
  · decide

theorem c9_sizeHashGrouping_witness :
    ((akeys dbC9.Hashes).Nodup ∧ ∀ e ∈ dbC9.Files, 0 ≤ e.2.Size) ∧
      (akeys dbC9.duplicatesBySizeAndHash).Nodup :=
  ⟨⟨by decide, by decide⟩, (c9_sizeHashGrouping.1 dbC9 (by decide) (by decide)).2⟩

/-! ## Claim C8: the three-way highlight policy -/

instance : IsTotal (Nat × Nat) fun a b => a.1 ≤ b.1 := ⟨fun a b => Nat.le_total a.1 b.1⟩

instance : IsTrans (Nat × Nat) fun a b => a.1 ≤ b.1 := ⟨fun _ _ _ => Nat.le_trans⟩

/-- Overlap of two half-open spans. -/
def spanOverlap (a b : Nat × Nat) : Prop := max a.1 b.1 < min a.2 b.2

instance : DecidableRel spanOverlap := fun a b => by unfold spanOverlap; infer_instance

theorem spanOverlap_symm {a b : Nat × Nat} (h : spanOverlap a b) : spanOverlap b a := by
  unfold spanOverlap at h ⊢
  omega

/-- Declarative renderer of the specification wording: each span in
turn, the unstyled gap before it, then the span wrapped in the strong
marker, then the tail after the last span.  Defined from the
specification sentence, to be compared with the loop of the source. -/
def renderSpans (hay : List Char) (tmp : Nat) : List (Nat × Nat) → List Char
  | [] => hay.drop tmp
  | (s, e) :: rest =>
    sliceChars hay tmp s ++ redBold ++ sliceChars hay s e ++ resetCode ++ renderSpans hay e rest

/-- Progress predicate of the render loop: every span starts no earlier
than the running end offset (or the offset is still zero). -/
def okFrom (tmp : Nat) : List (Nat × Nat) → Prop
  | [] => True
  | (s, e) :: rest => (tmp = 0 ∨ tmp ≤ s) ∧ okFrom e rest

theorem renderLoop_none_iff (hay : List Char) :
    ∀ (l : List (Nat × Nat)) (tmp : Nat), renderLoop hay l tmp = none ↔ ¬ okFrom tmp l := by
  intro l
  induction l with
  | nil =>
    intro tmp
    simp [renderLoop, okFrom]
  | cons a rest ih =>
    intro tmp
    obtain ⟨s, e⟩ := a
    by_cases hc : tmp > 0 ∧ tmp > s
    · simp only [renderLoop, if_pos hc, okFrom]
      constructor
      · intro _ hok
        rcases hok.1 with h | h <;> omega
      · intro _
        trivial
    · simp only [renderLoop, if_neg hc, okFrom]
      constructor
      · intro hn hok
        cases hr : renderLoop hay rest e with
        | none => exact (ih e).mp hr hok.2
        | some ps => rw [hr] at hn; cases hn
      · intro hn
        cases hr : renderLoop hay rest e with
        | none => rfl
        | some ps =>
          exfalso
          apply hn
          refine ⟨by omega, ?_⟩
          by_contra hok
          rw [(ih e).mpr hok] at hr
          cases hr

theorem renderLoop_ok (hay : List Char) :
    ∀ (l : List (Nat × Nat)) (tmp : Nat), okFrom tmp l →
      ∃ ps, renderLoop hay l tmp = some ps ∧ ps.flatten = renderSpans hay tmp l ∧
        2 * l.length ≤ ps.length := by
  intro l
  induction l with
  | nil =>
    intro tmp _
    refine ⟨if tmp < hay.length then [hay.drop tmp] else [], rfl, ?_, by positivity⟩
    by_cases hl : tmp < hay.length
    · simp [hl, renderSpans]
    · rw [if_neg hl]
      have : hay.drop tmp = [] := List.drop_eq_nil_of_le (by omega)
      simp [renderSpans, this]
  | cons a rest ih =>
    intro tmp hok
    obtain ⟨s, e⟩ := a
    obtain ⟨hc, hok2⟩ := hok
    obtain ⟨ps, hps, hflat, hlen⟩ := ih e hok2
    have hnc : ¬(tmp > 0 ∧ tmp > s) := by
      rcases hc with h | h <;> omega
    refine ⟨sliceChars hay tmp s :: (redBold ++ sliceChars hay s e ++ resetCode) :: ps, ?_, ?_, ?_⟩
    · simp only [renderLoop, if_neg hnc, hps, Option.map_some']
    · simp only [List.flatten_cons, hflat, renderSpans]
      simp [List.append_assoc]
    · simp only [List.length_cons]
      omega

theorem okFrom_chain (l : List (Nat × Nat)) (hne : ∀ sp ∈ l, sp.1 < sp.2) :
    ∀ tmp, okFrom tmp l → l.Chain' fun a b => a.2 ≤ b.1 := by
  induction l with
  | nil => exact fun _ _ => List.chain'_nil
  | cons a rest ih =>
    intro tmp hok
    obtain ⟨s, e⟩ := a
    obtain ⟨_, hok2⟩ := hok
    cases rest with
    | nil => exact List.chain'_singleton _
    | cons b rest' =>
      apply List.chain'_cons.mpr
      constructor
      · have hb := hok2.1
        have hse : s < e := hne (s, e) (List.mem_cons_self _ _)
        rcases hb with h | h
        · omega
        · exact h
      · exact ih (fun sp hsp => hne sp (List.mem_cons_of_mem _ hsp)) e hok2

theorem chain_okFrom (l : List (Nat × Nat)) :
    ∀ tmp, l.Chain' (fun a b => a.2 ≤ b.1) → (∀ b ∈ l.head?, tmp ≤ b.1) →
      okFrom tmp l := by
  induction l with
  | nil => intro tmp _ _; trivial
  | cons a rest ih =>
    intro tmp hch hhd
    obtain ⟨s, e⟩ := a
    refine ⟨Or.inr (hhd (s, e) rfl), ?_⟩
    cases rest with
    | nil => trivial
    | cons b rest' =>
      have h2 := List.chain'_cons.mp hch
      exact ih e h2.2 fun c hc => by
        cases hc
        exact h2.1

theorem sorted_head_le {h : Nat × Nat} {t : List (Nat × Nat)}
    (hs : (h :: t).Sorted fun a b => a.1 ≤ b.1) : ∀ b ∈ h :: t, h.1 ≤ b.1 := by
  intro b hb
  rcases List.mem_cons.mp hb with rfl | hb
  · exact Nat.le_refl _
  · exact List.rel_of_pairwise_cons hs hb

theorem pairwise_disjoint_chain (l : List (Nat × Nat))
    (hs : l.Sorted fun a b => a.1 ≤ b.1) (hne : ∀ sp ∈ l, sp.1 < sp.2) :
    l.Pairwise (fun a b => ¬ spanOverlap a b) ↔ l.Chain' fun a b => a.2 ≤ b.1 := by
  induction l with
  | nil => simp
  | cons a rest ih =>
    have hstail : rest.Sorted fun a b => a.1 ≤ b.1 := (List.pairwise_cons.mp hs).2
    have hnetail : ∀ sp ∈ rest, sp.1 < sp.2 := fun sp hsp => hne sp (List.mem_cons_of_mem _ hsp)
    constructor
    · intro hp
      have hp2 := List.pairwise_cons.mp hp
      cases rest with
      | nil => exact List.chain'_singleton _
      | cons b rest' =>
        apply List.chain'_cons.mpr
        refine ⟨?_, (ih hstail hnetail).mp hp2.2⟩
        have hno := hp2.1 b (List.mem_cons_self _ _)
        have hab : a.1 ≤ b.1 := List.rel_of_pairwise_cons hs (List.mem_cons_self _ _)
        have hbne : b.1 < b.2 := hne b (List.mem_cons_of_mem _ (List.mem_cons_self _ _))
        unfold spanOverlap at hno
        omega
    · intro hch
      apply List.pairwise_cons.mpr
      cases rest with
      | nil => exact ⟨fun b hb => absurd hb (List.not_mem_nil b), List.Pairwise.nil⟩
      | cons b rest' =>
        have h2 := List.chain'_cons.mp hch
        refine ⟨?_, (ih hstail hnetail).mpr h2.2⟩
        intro c hc
        have hbc : b.1 ≤ c.1 := sorted_head_le hstail c hc
        have hcne : c.1 < c.2 := hnetail c hc
        unfold spanOverlap
        omega

theorem mem_foldl_spans (lower : List Char) (needles : List String)
    (acc : List (Nat × Nat)) (sp : Nat × Nat) :
    (sp ∈ needles.foldl (fun acc needle =>
        match goIndex needle.data lower with
        | none => acc
        | some idx => acc ++ [(idx, idx + needle.data.length)]) acc) ↔
      sp ∈ acc ∨ ∃ n ∈ needles, ∃ i, goIndex n.data lower = some i ∧
        sp = (i, i + n.data.length) := by
  induction needles generalizing acc with
  | nil => simp
  | cons n rest ih =>
    simp only [List.foldl_cons]
    cases hg : goIndex n.data lower with
    | none =>
      rw [ih]
      constructor
      · rintro (h | ⟨m, hm, i, hi, hsp⟩)
        · exact Or.inl h
        · exact Or.inr ⟨m, List.mem_cons_of_mem _ hm, i, hi, hsp⟩
      · rintro (h | ⟨m, hm, i, hi, hsp⟩)
        · exact Or.inl h
        · rcases List.mem_cons.mp hm with rfl | hm
          · rw [hg] at hi
            cases hi
          · exact Or.inr ⟨m, hm, i, hi, hsp⟩
    | some idx =>
      rw [ih]
      constructor
      · rintro (h | ⟨m, hm, i, hi, hsp⟩)
        · rcases List.mem_append.mp h with h | h
          · exact Or.inl h
          · simp only [List.mem_singleton] at h
            exact Or.inr ⟨n, List.mem_cons_self _ _, idx, hg, h⟩
        · exact Or.inr ⟨m, List.mem_cons_of_mem _ hm, i, hi, hsp⟩
      · rintro (h | ⟨m, hm, i, hi, hsp⟩)
        · exact Or.inl (List.mem_append_left _ h)
        · rcases List.mem_cons.mp hm with rfl | hm
          · rw [hg] at hi
            cases hi
            exact Or.inl (List.mem_append_right _ (by simp [hsp]))
          · exact Or.inr ⟨m, hm, i, hi, hsp⟩

theorem matchedSpans_mem (haystack : String) (needles : List String) (sp : Nat × Nat) :
    sp ∈ matchedSpans haystack needles ↔
      ∃ n ∈ needles, ∃ i, goIndex n.data (haystack.data.map lowerChar) = some i ∧
        sp = (i, i + n.data.length) := by
  show sp ∈ needles.foldl _ [] ↔ _
  rw [mem_foldl_spans]
  simp

theorem matchedSpans_nonempty {haystack : String} {needles : List String}
    (hne : ∀ n ∈ needles, n ≠ "") :
    ∀ sp ∈ matchedSpans haystack needles, sp.1 < sp.2 := by
  intro sp hsp
  obtain ⟨n, hn, i, hi, rfl⟩ := (matchedSpans_mem _ _ _).mp hsp
  have hd : n.data ≠ [] := fun hd => hne n hn (stringDataInj hd)
  have hp : 0 < n.data.length := List.length_pos.mpr hd
  simp only []
  omega

theorem findHighlights_none {haystack : String} {needles : List String}
    (h : renderLoop haystack.data (sortSpans (matchedSpans haystack needles)) 0 = none) :
    FindHighlights haystack needles = ⟨blueBold ++ haystack.data ++ resetCode⟩ := by
  unfold FindHighlights
  simp only [h]

theorem findHighlights_some {haystack : String} {needles : List String} {ps : List (List Char)}
    (h : renderLoop haystack.data (sortSpans (matchedSpans haystack needles)) 0 = some ps) :
    FindHighlights haystack needles =
      if ps.length ≤ 1 then ⟨yellowBold ++ haystack.data ++ resetCode⟩ else ⟨ps.flatten⟩ := by
  unfold FindHighlights
  simp only [h]

/-- C8 amended: for every haystack and every list of nonempty tokens the
renderer follows the three-way policy: no matched span gives the
weak-marker wrap; two overlapping matched spans give the ambiguous-marker
wrap of the whole string; otherwise the output is the string with every
matched span, sorted by start offset, wrapped in the strong marker, as
renderSpans states it in the words of the specification. -/
theorem c8_highlightThreeWay (haystack : String) (needles : List String)
    (hne : ∀ n ∈ needles, n ≠ "") :
    (matchedSpans haystack needles = [] →
        FindHighlights haystack needles = ⟨yellowBold ++ haystack.data ++ resetCode⟩) ∧
      ((¬ (matchedSpans haystack needles).Pairwise fun a b => ¬ spanOverlap a b) →
        FindHighlights haystack needles = ⟨blueBold ++ haystack.data ++ resetCode⟩) ∧
      (matchedSpans haystack needles ≠ [] →
        ((matchedSpans haystack needles).Pairwise fun a b => ¬ spanOverlap a b) →
        FindHighlights haystack needles
          = ⟨renderSpans haystack.data 0 (sortSpans (matchedSpans haystack needles))⟩) := by
  have hsorted : (sortSpans (matchedSpans haystack needles)).Sorted fun a b => a.1 ≤ b.1 :=
    List.sorted_insertionSort _ _
  have hperm : (sortSpans (matchedSpans haystack needles)).Perm
      (matchedSpans haystack needles) := List.perm_insertionSort _ _
  have hnes : ∀ sp ∈ sortSpans (matchedSpans haystack needles), sp.1 < sp.2 := by
    intro sp hsp
    exact matchedSpans_nonempty hne sp (hperm.mem_iff.mp hsp)
  have hpairiff :
      ((sortSpans (matchedSpans haystack needles)).Pairwise fun a b => ¬ spanOverlap a b)
        ↔ ((matchedSpans haystack needles).Pairwise fun a b => ¬ spanOverlap a b) :=
    List.Perm.pairwise_iff (fun hab h => hab (spanOverlap_symm h)) hperm
  refine ⟨?_, ?_, ?_⟩
  · intro h
    have hs : sortSpans (matchedSpans haystack needles) = [] := by
      rw [h]
      rfl
    have hr : renderLoop haystack.data (sortSpans (matchedSpans haystack needles)) 0
        = some (if 0 < haystack.data.length then [haystack.data.drop 0] else []) := by
      rw [hs]
      rfl
    rw [findHighlights_some hr]
    by_cases hlen : 0 < haystack.data.length
    · rw [if_pos hlen, if_pos (by simp)]
    · rw [if_neg hlen, if_pos (by simp)]
  · intro hnp
    apply findHighlights_none
    rw [renderLoop_none_iff]
    intro hok
    have hch := okFrom_chain _ hnes 0 hok
    have hpw := (pairwise_disjoint_chain _ hsorted hnes).mpr hch
    exact hnp (hpairiff.mp hpw)
  · intro hnonempty hp
    have hch := (pairwise_disjoint_chain _ hsorted hnes).mp (hpairiff.mpr hp)
    have hok := chain_okFrom _ 0 hch fun b _ => Nat.zero_le _
    obtain ⟨ps, hps, hflat, hlen⟩ := renderLoop_ok haystack.data _ 0 hok
    rw [findHighlights_some hps]
    have hlen2 : 0 < (sortSpans (matchedSpans haystack needles)).length := by
      rw [hperm.length_eq]
      exact List.length_pos.mpr hnonempty
    rw [if_neg (by omega), hflat]

theorem c8_highlightThreeWay_witness :
    (∀ n ∈ ["foo", "oba"], n ≠ "") ∧
      FindHighlights "Foobar" ["foo", "oba"] = ⟨blueBold ++ "Foobar".data ++ resetCode⟩ :=
  ⟨by decide, (c8_highlightThreeWay "Foobar" ["foo", "oba"] (by decide)).2.1 (by decide)⟩

/-- C8 counterexample: with the empty token among the queries, both
tokens of the query set match the haystack ab with the disjoint spans
from offset 0 to 2 and the empty span at 0, no two matched spans
overlap, yet the renderer returns the whole string in the ambiguous
marker instead of the per-span strong highlighting the claim requires. -/
theorem c8_counterexample :
    FindHighlights "ab" ["ab", ""] = ⟨blueBold ++ "ab".data ++ resetCode⟩ ∧
      matchedSpans "ab" ["ab", ""] = [(0, 2), (0, 0)] ∧
      ((matchedSpans "ab" ["ab", ""]).Pairwise fun a b => ¬ spanOverlap a b) := by
  refine ⟨by decide, by decide, ?_⟩
  rw [show matchedSpans "ab" ["ab", ""] = [(0, 2), (0, 0)] from by decide]
  decide
